import Mathlib

/-!
Removing every second element of a vector: `remove_second`.

A shallow embedding of `2_remove_second/remove_second.h` and of the harness in
`2_remove_second/remove_second_test.cpp`.

* A `std::vector<T>` is a `List α`; its size is a `size_t`, so the theorems about
  a vector carry the hypothesis that its length is below `2 ^ 64`.
* `size_t` arithmetic is arithmetic on `Nat` reduced modulo `2 ^ 64`.
* An indexed access outside the vector is undefined behaviour; the embedded
  functions return `none` there, and `some` of the final vector otherwise.
* `std::move` leaves its source in a moved-from state.  The element type
  comes with the function `moved` giving that state (the identity for
  `size_t`), with the function `self_moved` giving the state of an object
  after it has been move-assigned from itself (the identity for `size_t`; the
  empty string for the `std::string` of libstdc++), and with the value `init`
  that `resize` would append.
-/

namespace RemoveSecond

/-! ## Machine integers -/

/-- Number of values of a `size_t` (64 bits). -/
def SIZE_T_RANGE : Nat := 18446744073709551616

/-- Reduction of a natural number to a `size_t`. -/
def size_t_wrap (x : Nat) : Nat := x % SIZE_T_RANGE

/-- Reduction of an integer to a 32-bit signed `int` (two's complement). -/
def int_wrap (x : Int) : Int := (x + 2147483648) % 4294967296 - 2147483648

/-! ## Elements and vectors -/

/-- What the embedding needs to know about the element type `T`: the state
`std::move` leaves behind in its source, the state of an object after a move
assignment from itself, and the value-initialised `T()`. -/
structure ElemOps (α : Type) where
  /-- State of an object after it has been moved from. -/
  moved : α → α
  /-- State of an object after `x = std::move(x)`. -/
  self_moved : α → α
  /-- Value of a value-initialised element. -/
  init : α

/-- Element operations of `size_t`: moving copies, also onto itself; `T()` is
zero. -/
def size_t_ops : ElemOps Nat := ⟨fun x => x, fun x => x, 0⟩

/-- The statement `target[dst] = std::move(target[src])`: both accesses must be
in bounds.  For two different slots the source is left moved-from and the
destination receives the value the source held; for `dst = src` the slot is
move-assigned from itself. -/
def move_assign {α : Type} (ops : ElemOps α) (target : List α) (dst src : Nat) :
    Option (List α) :=
  match target[src]? with
  | none => none
  | some x =>
    if dst < target.length then
      if dst = src then some (target.set src (ops.self_moved x))
      else some ((target.set src (ops.moved x)).set dst x)
    else none

/-- The call `target.resize(n)`: keeps the first `n` elements, or appends
value-initialised elements up to the length `n`. -/
def resize {α : Type} (ops : ElemOps α) (target : List α) (n : Nat) : List α :=
  target.take n ++ List.replicate (n - target.length) ops.init

/-! ## Strategy 1: `remove_second` -/

/-- The expression `(target.size() / 2) + (target.size() % 2)` in `size_t`
arithmetic. -/
def new_size (n : Nat) : Nat := size_t_wrap (size_t_wrap (n / 2) + n % 2)

/-- The loop `for (size_t i = 1; i < new_size; ++i) target[i] = std::move(target[i * 2]);`
started at index `i`, with `fuel` bounding the number of iterations. -/
def remove_second_loop {α : Type} (ops : ElemOps α) (new_sz : Nat) :
    Nat → Nat → List α → Option (List α)
  | 0, i, target => if i < new_sz then none else some target
  | fuel + 1, i, target =>
    if i < new_sz then
      match move_assign ops target i (size_t_wrap (i * 2)) with
      | none => none
      | some target1 => remove_second_loop ops new_sz fuel (size_t_wrap (i + 1)) target1
    else some target

/-- The function `remove_second`. The loop runs at most `new_size` times. -/
def remove_second {α : Type} (ops : ElemOps α) (target : List α) : Option (List α) :=
  let new_sz := new_size target.length
  match remove_second_loop ops new_sz new_sz 1 target with
  | none => none
  | some target1 => some (resize ops target1 new_sz)

/-! ## Strategy 2: `remove_second_using_remove_if` -/

/-- The predicate `[index = 0](const T &) mutable { return (index++) & 1; }`:
from the captured counter, the returned truth value and the new counter.  The
low bit of a two's complement `int` is its remainder modulo two; the increment
of the 32-bit counter is taken to wrap around. -/
def parity_pred (index : Int) : Bool × Int :=
  (decide (index % 2 ≠ 0), int_wrap (index + 1))

/-- The search `std::find_if(first, last, pred)` over the positions
`pos, pos + 1, ...` of a range of `remaining` elements: the position of the
first element the predicate accepts (or the end), and the predicate's counter
afterwards. -/
def find_if_parity : Nat → Nat → Int → Nat × Int
  | 0, pos, index => (pos, index)
  | remaining + 1, pos, index =>
    if (parity_pred index).1 then (pos, (parity_pred index).2)
    else find_if_parity remaining (pos + 1) (parity_pred index).2

/-- The shifting loop of `std::remove_if`:
`for (; first != last; ++first) if (!pred(*first)) { *result = std::move(*first); ++result; }`.
Returns the vector and the final `result` position. -/
def remove_if_loop {α : Type} (ops : ElemOps α) :
    Nat → List α → Nat → Nat → Int → Option (List α × Nat)
  | 0, target, result, first, _ =>
    if first = target.length then some (target, result) else none
  | fuel + 1, target, result, first, index =>
    if first = target.length then some (target, result)
    else if (parity_pred index).1 then
      remove_if_loop ops fuel target result (first + 1) (parity_pred index).2
    else
      match move_assign ops target result first with
      | none => none
      | some target1 =>
        remove_if_loop ops fuel target1 (result + 1) (first + 1) (parity_pred index).2

/-- The algorithm `std::remove_if(target.begin(), target.end(), pred)` with the
counting predicate: `find_if` locates the first removed element, then the
shifting loop runs from the element after it.  The standard lets an
implementation copy the predicate: with `shared = false` the search works on
its own copy and the shifting loop starts again from the counter `index`
(libstdc++), with `shared = true` both use one counter (libc++). -/
def std_remove_if {α : Type} (ops : ElemOps α) (shared : Bool) (target : List α)
    (index : Int) : Option (List α × Nat) :=
  let found := find_if_parity target.length 0 index
  if found.1 = target.length then some (target, found.1)
  else
    remove_if_loop ops target.length target found.1 (found.1 + 1)
      (if shared then found.2 else index)

/-- The function `remove_second_using_remove_if`: `std::remove_if` with the
counter starting at zero, then `erase` from the returned position to the end. -/
def remove_second_using_remove_if {α : Type} (ops : ElemOps α) (shared : Bool)
    (target : List α) : Option (List α) :=
  match std_remove_if ops shared target 0 with
  | none => none
  | some (target1, new_end) => some (target1.take new_end)

/-! ## Strategy 3: `remove_second_using_ranges` -/

/-- The algorithm `std::ranges::move(target | std::views::stride(2), out)` with
`out` inside `target`: the view's iterator is at position `src` and advances by
two, stopping at the end; the output iterator is at position `dst`.  Both
start at position `0`, so the first step moves slot `0` onto itself. -/
def ranges_move_stride {α : Type} (ops : ElemOps α) :
    Nat → List α → Nat → Nat → Option (List α)
  | 0, target, src, _ => if src = target.length then some target else none
  | fuel + 1, target, src, dst =>
    if src = target.length then some target
    else
      match move_assign ops target dst src with
      | none => none
      | some target1 =>
        ranges_move_stride ops fuel target1 (min (src + 2) target1.length) (dst + 1)

/-- The function `remove_second_using_ranges`. -/
def remove_second_using_ranges {α : Type} (ops : ElemOps α) (target : List α) :
    Option (List α) :=
  match ranges_move_stride ops target.length target 0 0 with
  | none => none
  | some target1 => some (resize ops target1 (new_size target1.length))

/-! ## The size computation of the source comment -/

/-- The expression `(target.size() + 1) / 2` that the comment in `remove_second`
warns against, in `size_t` arithmetic. -/
def new_size_by_increment (n : Nat) : Nat := size_t_wrap (n + 1) / 2

/-! ## The harness: `remove_second_test.cpp` -/

/-- How a call of a harness function ends. -/
inductive Outcome where
  /-- The function ran to its end and returned. -/
  | completed
  /-- Control reached the closing brace of a function declared to return a
  value, without a `return` statement. -/
  | no_return
  /-- A `std::runtime_error` with this message was thrown. -/
  | threw (what : String)
  /-- A registered function, or the harness itself, had undefined behaviour. -/
  | undefined
  deriving DecidableEq

/-- The type `test_function_type`: an operation on a test vector and its name. -/
structure test_function where
  /-- The operation; `none` when it has undefined behaviour. -/
  func : List Nat → Option (List Nat)
  /-- The name printed in messages. -/
  name : String

/-- The function `create_test_vector`: the vector built from
`std::views::iota(1, size + 1)`, the bound computed in `size_t`.  The view
requires its start not to exceed its bound. -/
def create_test_vector (size : Nat) : Option (List Nat) :=
  let bound := size_t_wrap (size + 1)
  if 1 ≤ bound then some (List.range' 1 (bound - 1)) else none

/-- The table `TEST_VECTORS` of `run_validation_tests`. -/
def TEST_VECTORS : List (List Nat) :=
  [[], [], [1, 2], [1, 2, 3], [1, 2, 3, 4], [1, 2, 3, 4, 5], [1, 2, 3, 4, 5, 6]]

/-- The table `EXPECTED_RESULTS` of `run_validation_tests`. -/
def EXPECTED_RESULTS : List (List Nat) :=
  [[], [], [1], [1, 3], [1, 3], [1, 3, 5], [1, 3, 5]]

/-- The message thrown by `run_validation_tests`. -/
def validation_message (name : String) (size : Nat) : String :=
  "ERROR: " ++ name ++ " failed for the test vector of size " ++ toString size ++ "!\n"

/-- The inner loop of `run_validation_tests` over the registered functions, for
one test vector: each function gets its own copy of the test vector. -/
def validate_functions (test_vector expected : List Nat) : List test_function → Outcome
  | [] => Outcome.completed
  | f :: rest =>
    match f.func test_vector with
    | none => Outcome.undefined
    | some out =>
      if out ≠ expected then Outcome.threw (validation_message f.name test_vector.length)
      else validate_functions test_vector expected rest

/-- The outer loop of `run_validation_tests` from index `test_ind`, over
`remaining` further test vectors. -/
def validation_loop (functions : List test_function) : Nat → Nat → Outcome
  | 0, _ => Outcome.completed
  | remaining + 1, test_ind =>
    match TEST_VECTORS[test_ind]?, EXPECTED_RESULTS[test_ind]? with
    | some test_vector, some expected =>
      match validate_functions test_vector expected functions with
      | Outcome.completed => validation_loop functions remaining (test_ind + 1)
      | other => other
    | _, _ => Outcome.undefined

/-- The function `run_validation_tests`. -/
def run_validation_tests (functions : List test_function) : Outcome :=
  validation_loop functions TEST_VECTORS.length 0

/-- The array `PERFORMANCE_TEST_SIZES` of `run_performance_tests`. -/
def PERFORMANCE_TEST_SIZES : List Nat :=
  [1000, 10000, 100000, 1000000, 10000000, 50000000]

/-- The algorithm `std::adjacent_find(first, last, pred)` on the range starting
at position `pos`: the position of the first element that `pred` relates to
its successor, or the end position. -/
def adjacent_find {β : Type} (pred : β → β → Bool) : List β → Nat → Nat
  | [], pos => pos
  | [_], pos => pos + 1
  | a :: b :: rest, pos =>
    if pred a b then pos else adjacent_find pred (b :: rest) (pos + 1)

/-- The lambda `check_if_all_equal`: `adjacent_find` with `std::not_equal_to`
reaches the end. -/
def check_if_all_equal (v : List (List Nat)) : Bool :=
  decide (adjacent_find (fun a b => decide (a ≠ b)) v 0 = v.length)

/-- The inner loop of `run_performance_tests`: every function runs on its own
copy of `vec`, appended to `results`.  (The timing output is not modelled.) -/
def run_functions (vec : List Nat) : List test_function → Option (List (List Nat))
  | [] => some []
  | f :: rest =>
    match f.func vec with
    | none => none
    | some out =>
      match run_functions vec rest with
      | none => none
      | some results => some (out :: results)

/-- The message thrown by `run_performance_tests`. -/
def performance_message (test_size : Nat) : String :=
  "ERROR: results differ between methods for size " ++ toString test_size

/-- The loop of `run_performance_tests` over a list of sizes.  The function is
declared to return `int` and has no `return` statement, so it ends by reaching
its closing brace. -/
def performance_loop (functions : List test_function) : List Nat → Outcome
  | [] => Outcome.no_return
  | test_size :: rest =>
    match create_test_vector test_size with
    | none => Outcome.undefined
    | some vec =>
      match run_functions vec functions with
      | none => Outcome.undefined
      | some results =>
        if !check_if_all_equal results then Outcome.threw (performance_message test_size)
        else performance_loop functions rest

/-- The function `run_performance_tests`. -/
def run_performance_tests (functions : List test_function) : Outcome :=
  performance_loop functions PERFORMANCE_TEST_SIZES

/-- The list `functions_to_test` registered in `main`, the strategies
instantiated at `test_value_type = size_t`.  The flag `shared` says whether the
library's `std::remove_if` shares the predicate with its search. -/
def functions_to_test (shared : Bool) : List test_function :=
  [⟨remove_second size_t_ops, "remove_second"⟩,
   ⟨remove_second_using_remove_if size_t_ops shared, "remove_second_using_remove_if"⟩,
   ⟨remove_second_using_ranges size_t_ops, "remove_second_using_ranges"⟩]

/-- The function `main`, with the registered list as its parameter: the exit
status of the program, or `none` when its behaviour is undefined.  An exception
from either phase is caught and gives the status `1`; the performance phase is
called after the validation phase has returned; `return 0` follows the return
of the performance phase.  Reaching the closing brace of
`run_performance_tests`, declared to return `int`, without a `return`
statement is undefined behaviour. -/
def main (functions : List test_function) : Option Nat :=
  match run_validation_tests functions with
  | Outcome.threw _ => some 1
  | Outcome.completed =>
    match run_performance_tests functions with
    | Outcome.threw _ => some 1
    | Outcome.completed => some 0
    | Outcome.no_return => none
    | Outcome.undefined => none
  | Outcome.no_return => none
  | Outcome.undefined => none

/-! ## Sample inputs -/

/-- Element operations of `std::unique_ptr<size_t>`, a pointer being `none`
when null: a moved-from pointer is null, and so is a value-initialised one; a
move assignment from itself (`reset(release())`) keeps the pointer. -/
def unique_ptr_ops : ElemOps (Option Nat) := ⟨fun _ => none, fun p => p, none⟩

/-- Element operations of `std::string` as libstdc++ implements it: a
moved-from string is empty, a string move-assigned from itself is empty, and
so is a value-initialised one. -/
def string_ops : ElemOps String := ⟨fun _ => "", fun _ => "", ""⟩

/-- A registered list whose second function leaves its vector unchanged. -/
def sample_functions : List test_function :=
  [⟨remove_second size_t_ops, "remove_second"⟩, ⟨fun v => some v, "keep_all"⟩]

/-! ## Specification-side definitions -/

/-- The sequence `[a0, a2, a4, …]` of the specification: the elements at even
0-based indices, in their original order. -/
def even_elements {α : Type} : List α → List α
  | [] => []
  | [a] => [a]
  | a :: _ :: rest => a :: even_elements rest

/-- The vector `v` after its first element has been move-assigned from itself. -/
def self_move_front {α : Type} (ops : ElemOps α) : List α → List α
  | [] => []
  | a :: rest => ops.self_moved a :: rest

/-- The odd numbers `[1, 3, 5, …]`, `count` of them. -/
def odd_numbers (count : Nat) : List Nat := (List.range count).map (fun j => 2 * j + 1)

/-- A validation mismatch: the function with index `k` of the registered list,
run on the test vector with index `i`, returns a vector different from the
expected one. -/
def Mismatch (functions : List test_function) (i k : Nat) : Prop :=
  ∃ test_vector expected f out,
    TEST_VECTORS[i]? = some test_vector ∧ EXPECTED_RESULTS[i]? = some expected ∧
    functions[k]? = some f ∧ f.func test_vector = some out ∧ out ≠ expected

/-- State of the vector `t` after the iteration with index `i` of the loop of
`remove_second` on `v` (`i = 0`: before the first iteration). -/
def LoopState {α : Type} (ops : ElemOps α) (v t : List α) (i : Nat) : Prop :=
  t.length = v.length ∧
  (∀ k, k ≤ i → t[k]? = v[2 * k]?) ∧
  (∀ k, i < k → (k % 2 = 1 ∨ 2 * i < k) → t[k]? = v[k]?) ∧
  (∀ k, i < k → k % 2 = 0 → k ≤ 2 * i → t[k]? = (v[k]?).map ops.moved)

/-! ## Invariant shared by the three strategies -/

/-- State of a vector `t` being compacted from the original `v`: the length is
unchanged, the first `d` slots hold the original even-indexed elements, and the
slots from `s` on are untouched. -/
def Compacted {α : Type} (v t : List α) (d s : Nat) : Prop :=
  t.length = v.length ∧ (∀ k, k < d → t[k]? = v[2 * k]?) ∧ (∀ k, s ≤ k → t[k]? = v[k]?)

/-- The result `r` is the sequence of the even-indexed elements of `v`. -/
def EvenIndexed {α : Type} (v r : List α) : Prop :=
  r.length = (v.length + 1) / 2 ∧ ∀ j, j < (v.length + 1) / 2 → r[j]? = v[2 * j]?

theorem size_t_wrap_of_lt {x : Nat} (h : x < 18446744073709551616) : size_t_wrap x = x := by
  unfold size_t_wrap SIZE_T_RANGE
  omega

theorem new_size_eq {n : Nat} (h : n < 18446744073709551616) : new_size n = (n + 1) / 2 := by
  unfold new_size size_t_wrap SIZE_T_RANGE
  omega

theorem compacted_start {α : Type} (v : List α) (s : Nat) : Compacted v v 1 s := by
  refine ⟨rfl, ?_, fun _ _ => rfl⟩
  intro k hk
  have : k = 0 := by omega
  subst this
  rfl

theorem compacted_zero {α : Type} (v : List α) (s : Nat) : Compacted v v 0 s :=
  ⟨rfl, fun k hk => absurd hk (Nat.not_lt_zero k), fun _ _ => rfl⟩

theorem compacted_mono {α : Type} {v t : List α} {d s s1 : Nat} (h : Compacted v t d s)
    (hs : s ≤ s1) : Compacted v t d s1 :=
  ⟨h.1, h.2.1, fun k hk => h.2.2 k (Nat.le_trans hs hk)⟩

/-- One move from slot `2 * d` to a different slot `d` extends the compacted
front by one. -/
theorem move_assign_compacted {α : Type} (ops : ElemOps α) {v t : List α} {d s : Nat}
    (h : Compacted v t d s) (hs : s ≤ 2 * d) (hd : 2 * d < v.length) (hd0 : 0 < d) :
    ∃ t1, move_assign ops t d (2 * d) = some t1 ∧ Compacted v t1 (d + 1) (2 * d + 1) := by
  obtain ⟨hlen, hfront, hback⟩ := h
  have hsrc : 2 * d < t.length := by omega
  have hx : t[2 * d]? = some (t[2 * d]) := List.getElem?_eq_getElem hsrc
  have hdst : d < t.length := by omega
  refine ⟨(t.set (2 * d) (ops.moved t[2 * d])).set d t[2 * d], ?_, ?_, ?_, ?_⟩
  · simp only [move_assign, hx]
    rw [if_pos hdst, if_neg (by omega)]
  · simp [hlen]
  · intro k hk
    by_cases hkd : k = d
    · subst hkd
      rw [List.getElem?_set_self (by simpa using hdst), ← hx]
      exact hback _ hs
    · rw [List.getElem?_set_ne (Ne.symm hkd), List.getElem?_set_ne (by omega)]
      exact hfront k (by omega)
  · intro k hk
    rw [List.getElem?_set_ne (by omega), List.getElem?_set_ne (by omega)]
    exact hback k (by omega)

/-- Truncating a vector whose front is compacted gives the even-indexed elements. -/
theorem take_evenIndexed {α : Type} {v t : List α} (hlen : t.length = v.length)
    (hfront : ∀ k, k < (v.length + 1) / 2 → t[k]? = v[2 * k]?) :
    EvenIndexed v (t.take ((v.length + 1) / 2)) := by
  refine ⟨?_, ?_⟩
  · rw [List.length_take, hlen]
    omega
  · intro j hj
    rw [List.getElem?_take_of_lt hj]
    exact hfront j hj

theorem resize_of_le {α : Type} (ops : ElemOps α) (t : List α) {n : Nat} (h : n ≤ t.length) :
    resize ops t n = t.take n := by
  simp [resize, Nat.sub_eq_zero_of_le h]

/-- Two sequences of the even-indexed elements of one vector are equal. -/
theorem evenIndexed_unique {α : Type} {v r1 r2 : List α} (h1 : EvenIndexed v r1)
    (h2 : EvenIndexed v r2) : r1 = r2 := by
  apply List.ext_getElem?
  intro j
  by_cases hj : j < (v.length + 1) / 2
  · rw [h1.2 j hj, h2.2 j hj]
  · rw [List.getElem?_eq_none (by rw [h1.1]; omega), List.getElem?_eq_none (by rw [h2.1]; omega)]

/-! ## The loops establish the invariant -/

theorem remove_second_loop_compacted {α : Type} (ops : ElemOps α) (v : List α)
    (hv : v.length < 18446744073709551616) :
    ∀ (fuel i : Nat) (t : List α), 1 ≤ i → (v.length + 1) / 2 ≤ i + fuel →
      Compacted v t i (2 * i - 1) →
      ∃ t1, remove_second_loop ops ((v.length + 1) / 2) fuel i t = some t1 ∧
        t1.length = v.length ∧ ∀ k, k < (v.length + 1) / 2 → t1[k]? = v[2 * k]? := by
  intro fuel
  induction fuel with
  | zero =>
    intro i t _ hfuel h
    refine ⟨t, ?_, h.1, fun k hk => h.2.1 k (by omega)⟩
    simp only [remove_second_loop]
    rw [if_neg (by omega)]
  | succ fuel ih =>
    intro i t hi hfuel h
    by_cases hlt : i < (v.length + 1) / 2
    · have hsrc : 2 * i < v.length := by omega
      obtain ⟨t1, hmove, h1⟩ := move_assign_compacted ops h (by omega) hsrc (by omega)
      obtain ⟨t2, hloop, hres⟩ := ih (i + 1) t1 (by omega) (by omega) (by simpa using h1)
      refine ⟨t2, ?_, hres⟩
      simp only [remove_second_loop]
      rw [if_pos hlt, size_t_wrap_of_lt (by omega : i * 2 < 18446744073709551616),
        size_t_wrap_of_lt (by omega : i + 1 < 18446744073709551616),
        (by omega : i * 2 = 2 * i), hmove]
      exact hloop
    · refine ⟨t, ?_, h.1, fun k hk => h.2.1 k (by omega)⟩
      simp only [remove_second_loop]
      rw [if_neg hlt]

theorem remove_second_evenIndexed {α : Type} (ops : ElemOps α) (v : List α)
    (hv : v.length < 18446744073709551616) :
    ∃ r, remove_second ops v = some r ∧ EvenIndexed v r := by
  obtain ⟨t1, hloop, hlen, hfront⟩ :=
    remove_second_loop_compacted ops v hv ((v.length + 1) / 2) 1 v (Nat.le_refl 1) (by omega)
      (compacted_start v _)
  refine ⟨t1.take ((v.length + 1) / 2), ?_, take_evenIndexed hlen hfront⟩
  simp only [remove_second]
  rw [new_size_eq hv, hloop]
  simp only
  rw [resize_of_le ops t1 (by omega)]

theorem parity_pred_fst (index : Int) : (parity_pred index).1 = decide (index % 2 ≠ 0) := rfl

/-- Wrapping the incremented counter to 32 bits flips its low bit. -/
theorem parity_pred_snd_mod (index : Int) :
    (parity_pred index).2 % 2 = (index + 1) % 2 := by
  simp only [parity_pred, int_wrap]
  omega

theorem remove_if_loop_compacted {α : Type} (ops : ElemOps α) (v : List α) :
    ∀ (fuel : Nat) (t : List α) (result first : Nat) (index : Int),
      first ≤ v.length → v.length ≤ first + fuel → 1 ≤ result → Compacted v t result first →
      (index % 2 = 0 → first = 2 * result) → (index % 2 ≠ 0 → first + 1 = 2 * result) →
      ∃ t1, remove_if_loop ops fuel t result first index = some (t1, (v.length + 1) / 2) ∧
        t1.length = v.length ∧ ∀ k, k < (v.length + 1) / 2 → t1[k]? = v[2 * k]? := by
  intro fuel
  induction fuel with
  | zero =>
    intro t result first index hle hfuel hpos h hev hodd
    have hfirst : first = t.length := by rw [h.1]; omega
    have hres : result = (v.length + 1) / 2 := by
      by_cases hp : index % 2 = 0
      · have := hev hp
        omega
      · have := hodd hp
        omega
    refine ⟨t, ?_, h.1, fun k hk => h.2.1 k (by omega)⟩
    simp only [remove_if_loop]
    rw [if_pos hfirst, hres]
  | succ fuel ih =>
    intro t result first index hle hfuel hpos h hev hodd
    by_cases hfirst : first = t.length
    · have hres : result = (v.length + 1) / 2 := by
        have := h.1
        by_cases hp : index % 2 = 0
        · have := hev hp
          omega
        · have := hodd hp
          omega
      refine ⟨t, ?_, h.1, fun k hk => h.2.1 k (by omega)⟩
      simp only [remove_if_loop]
      rw [if_pos hfirst, hres]
    · have hlt : first < v.length := by
        have := h.1
        omega
      have hnext := parity_pred_snd_mod index
      by_cases hp : index % 2 = 0
      · have hf := hev hp
        have hpred : (parity_pred index).1 = false := by
          rw [parity_pred_fst]
          simp [hp]
        obtain ⟨t1, hmove, h1⟩ :=
          move_assign_compacted ops h (by omega) (by omega : 2 * result < v.length) (by omega)
        obtain ⟨t2, hloop, hres⟩ :=
          ih t1 (result + 1) (first + 1) (parity_pred index).2 (by omega) (by omega)
            (by omega) (by rw [hf]; exact h1) (by omega) (by omega)
        refine ⟨t2, ?_, hres⟩
        simp only [remove_if_loop]
        rw [if_neg hfirst, hpred]
        simp only [Bool.false_eq_true, if_false]
        rw [hf, hmove]
        simp only
        rw [← hf]
        exact hloop
      · have hf := hodd hp
        have hpred : (parity_pred index).1 = true := by
          rw [parity_pred_fst]
          simp [hp]
        obtain ⟨t2, hloop, hres⟩ :=
          ih t result (first + 1) (parity_pred index).2 (by omega) (by omega) hpos
            (compacted_mono h (by omega)) (by omega) (by omega)
        refine ⟨t2, ?_, hres⟩
        simp only [remove_if_loop]
        rw [if_neg hfirst, hpred]
        simp only [if_true]
        exact hloop

theorem find_if_parity_zero : find_if_parity 0 0 0 = (0, 0) := rfl

theorem find_if_parity_one : find_if_parity 1 0 0 = (1, 1) := by decide

theorem find_if_parity_two_le (n : Nat) : find_if_parity (n + 2) 0 0 = (1, 2) := by
  simp [find_if_parity, parity_pred, int_wrap]

theorem std_remove_if_compacted {α : Type} (ops : ElemOps α) (shared : Bool) (v : List α) :
    ∃ t1, std_remove_if ops shared v 0 = some (t1, (v.length + 1) / 2) ∧
      t1.length = v.length ∧ ∀ k, k < (v.length + 1) / 2 → t1[k]? = v[2 * k]? := by
  rcases hn : v.length with _ | _ | n
  · refine ⟨v, ?_, hn, fun k hk => absurd hk (by omega)⟩
    simp [std_remove_if, hn, find_if_parity_zero]
  · refine ⟨v, ?_, hn, fun k hk => ?_⟩
    · simp [std_remove_if, hn, find_if_parity_one]
    · have : k = 0 := by omega
      subst this
      rfl
  · obtain ⟨t1, hloop, hlen, hfront⟩ :=
      remove_if_loop_compacted ops v (n + 2) v 1 2 (if shared then 2 else 0) (by omega)
        (by omega) (Nat.le_refl 1) (compacted_start v 2) (fun _ => rfl)
        (fun h => absurd (by cases shared <;> simp) h)
    rw [hn] at hloop hlen hfront
    refine ⟨t1, ?_, hlen, hfront⟩
    simp only [std_remove_if, hn, find_if_parity_two_le]
    rw [if_neg (by omega)]
    exact hloop

theorem remove_second_using_remove_if_evenIndexed {α : Type} (ops : ElemOps α)
    (shared : Bool) (v : List α) :
    ∃ r, remove_second_using_remove_if ops shared v = some r ∧ EvenIndexed v r := by
  obtain ⟨t1, hrun, hlen, hfront⟩ := std_remove_if_compacted ops shared v
  refine ⟨t1.take ((v.length + 1) / 2), ?_, take_evenIndexed hlen hfront⟩
  simp only [remove_second_using_remove_if]
  rw [hrun]

theorem ranges_move_stride_compacted {α : Type} (ops : ElemOps α) (v : List α) :
    ∀ (fuel : Nat) (t : List α) (src dst : Nat), 1 ≤ dst →
      src = min (2 * dst) v.length → v.length ≤ src + fuel → Compacted v t dst (2 * dst) →
      ∃ t1, ranges_move_stride ops fuel t src dst = some t1 ∧
        t1.length = v.length ∧ ∀ k, k < (v.length + 1) / 2 → t1[k]? = v[2 * k]? := by
  intro fuel
  induction fuel with
  | zero =>
    intro t src dst hpos hsrc hfuel h
    have hend : src = t.length := by rw [h.1]; omega
    refine ⟨t, ?_, h.1, fun k hk => h.2.1 k (by omega)⟩
    simp only [ranges_move_stride]
    rw [if_pos hend]
  | succ fuel ih =>
    intro t src dst hpos hsrc hfuel h
    by_cases hend : src = t.length
    · have := h.1
      refine ⟨t, ?_, h.1, fun k hk => h.2.1 k (by omega)⟩
      simp only [ranges_move_stride]
      rw [if_pos hend]
    · have hlen := h.1
      have hs2 : src = 2 * dst := by omega
      obtain ⟨t1, hmove, h1⟩ :=
        move_assign_compacted ops h (Nat.le_refl _) (by omega : 2 * dst < v.length) (by omega)
      obtain ⟨t2, hloop, hres⟩ :=
        ih t1 (min (src + 2) t1.length) (dst + 1) (by omega) (by rw [h1.1]; omega)
          (by rw [h1.1]; omega) (compacted_mono h1 (by omega))
      refine ⟨t2, ?_, hres⟩
      simp only [ranges_move_stride]
      rw [if_neg hend, hs2, hmove]
      simp only
      rw [← hs2]
      exact hloop

theorem length_self_move_front {α : Type} (ops : ElemOps α) (v : List α) :
    (self_move_front ops v).length = v.length := by
  cases v <;> rfl

theorem self_move_front_of_id {α : Type} (ops : ElemOps α) (hself : ∀ x, ops.self_moved x = x)
    (v : List α) : self_move_front ops v = v := by
  cases v with
  | nil => rfl
  | cons a rest => simp [self_move_front, hself a]

/-- The whole move of the strided view: its first step moves slot `0` onto
itself, the later steps compact the vector this leaves. -/
theorem ranges_move_stride_front {α : Type} (ops : ElemOps α) (v : List α) :
    ∃ t1, ranges_move_stride ops v.length v 0 0 = some t1 ∧ t1.length = v.length ∧
      ∀ k, k < (v.length + 1) / 2 → t1[k]? = (self_move_front ops v)[2 * k]? := by
  cases v with
  | nil =>
    refine ⟨[], ?_, rfl, fun k hk => ?_⟩
    · simp [ranges_move_stride]
    · simp at hk
  | cons a rest =>
    have hstep : move_assign ops (a :: rest) 0 0 = some (ops.self_moved a :: rest) := by
      simp [move_assign]
    obtain ⟨t1, hloop, hlen, hfront⟩ :=
      ranges_move_stride_compacted ops (ops.self_moved a :: rest) rest.length
        (ops.self_moved a :: rest) (min 2 (rest.length + 1)) 1 (Nat.le_refl 1)
        (by simp only [List.length_cons]) (by simp only [List.length_cons]; omega)
        (compacted_start _ 2)
    refine ⟨t1, ?_, hlen, hfront⟩
    simp only [List.length_cons, ranges_move_stride]
    rw [if_neg (by omega), hstep]
    simp only [List.length_cons, Nat.zero_add]
    exact hloop

theorem remove_second_using_ranges_evenIndexed {α : Type} (ops : ElemOps α) (v : List α)
    (hv : v.length < 18446744073709551616) :
    ∃ r, remove_second_using_ranges ops v = some r ∧ EvenIndexed (self_move_front ops v) r := by
  obtain ⟨t1, hloop, hlen, hfront⟩ := ranges_move_stride_front ops v
  have hlen1 : t1.length = (self_move_front ops v).length := by
    rw [hlen, length_self_move_front]
  have hfront1 : ∀ k, k < ((self_move_front ops v).length + 1) / 2 →
      t1[k]? = (self_move_front ops v)[2 * k]? := by
    rw [length_self_move_front]
    exact hfront
  refine ⟨t1.take (((self_move_front ops v).length + 1) / 2), ?_,
    take_evenIndexed hlen1 hfront1⟩
  simp only [remove_second_using_ranges]
  rw [hloop]
  simp only
  rw [hlen, new_size_eq hv, resize_of_le ops t1 (by omega), length_self_move_front]

/-! ## The strategies compute `even_elements` -/

theorem length_even_elements {α : Type} :
    ∀ (n : Nat) (v : List α), v.length = n → (even_elements v).length = (n + 1) / 2 := by
  intro n
  induction n using Nat.strong_induction_on with
  | _ n ih =>
    intro v hv
    match v, hv with
    | [], hv =>
      subst hv
      simp [even_elements]
    | [a], hv =>
      subst hv
      simp [even_elements]
    | a :: b :: rest, hv =>
      simp only [List.length_cons] at hv
      simp only [even_elements, List.length_cons]
      rw [ih rest.length (by omega) rest rfl]
      omega

theorem getElem?_even_elements {α : Type} :
    ∀ (n : Nat) (v : List α), v.length = n → ∀ j, (even_elements v)[j]? = v[2 * j]? := by
  intro n
  induction n using Nat.strong_induction_on with
  | _ n ih =>
    intro v hv j
    match v, hv with
    | [], _ => simp [even_elements]
    | [a], _ =>
      cases j with
      | zero => simp [even_elements]
      | succ j => simp [even_elements, Nat.mul_succ]
    | a :: b :: rest, hv =>
      simp only [List.length_cons] at hv
      cases j with
      | zero => simp [even_elements]
      | succ j =>
        simp only [even_elements, Nat.mul_succ, List.getElem?_cons_succ]
        exact ih rest.length (by omega) rest rfl j

theorem evenIndexed_even_elements {α : Type} (v : List α) : EvenIndexed v (even_elements v) :=
  ⟨length_even_elements v.length v rfl, fun j _ => getElem?_even_elements v.length v rfl j⟩

theorem ceil_half (n : Nat) : ⌈(n : ℚ) / 2⌉₊ = (n + 1) / 2 := by
  rcases Nat.even_or_odd' n with ⟨k, hk | hk⟩
  · subst hk
    have h1 : ((2 * k : ℕ) : ℚ) / 2 = (k : ℚ) := by
      push_cast
      ring
    rw [h1, Nat.ceil_natCast]
    omega
  · subst hk
    have h2 : (2 * k + 1 + 1) / 2 = k + 1 := by omega
    rw [h2, Nat.ceil_eq_iff (Nat.succ_ne_zero k), Nat.succ_sub_one]
    push_cast
    constructor <;> linarith

theorem size_bound {n : Nat} (h : n < 2 ^ 64) : n < 18446744073709551616 := by
  norm_num at h
  exact h

theorem remove_second_eq {α : Type} (ops : ElemOps α) (v : List α)
    (hv : v.length < 18446744073709551616) : remove_second ops v = some (even_elements v) := by
  obtain ⟨r, hr, he⟩ := remove_second_evenIndexed ops v hv
  rw [hr, evenIndexed_unique he (evenIndexed_even_elements v)]

theorem remove_second_using_remove_if_eq {α : Type} (ops : ElemOps α) (shared : Bool)
    (v : List α) : remove_second_using_remove_if ops shared v = some (even_elements v) := by
  obtain ⟨r, hr, he⟩ := remove_second_using_remove_if_evenIndexed ops shared v
  rw [hr, evenIndexed_unique he (evenIndexed_even_elements v)]

/-- The strided move gives the even-indexed elements of the vector whose first
element has been move-assigned from itself. -/
theorem remove_second_using_ranges_front {α : Type} (ops : ElemOps α) (v : List α)
    (hv : v.length < 18446744073709551616) :
    remove_second_using_ranges ops v = some (even_elements (self_move_front ops v)) := by
  obtain ⟨r, hr, he⟩ := remove_second_using_ranges_evenIndexed ops v hv
  rw [hr, evenIndexed_unique he (evenIndexed_even_elements _)]

theorem remove_second_using_ranges_eq {α : Type} (ops : ElemOps α)
    (hself : ∀ x, ops.self_moved x = x) (v : List α)
    (hv : v.length < 18446744073709551616) :
    remove_second_using_ranges ops v = some (even_elements v) := by
  rw [remove_second_using_ranges_front ops v hv, self_move_front_of_id ops hself]

/-- Length and elements of `even_elements`, with the ceiling of the specification. -/
theorem even_elements_spec {α : Type} (v : List α) :
    (even_elements v).length = ⌈(v.length : ℚ) / 2⌉₊ ∧
      ∀ j, j < ⌈(v.length : ℚ) / 2⌉₊ →
        2 * j < v.length ∧ (even_elements v)[j]? = v[2 * j]? := by
  rw [ceil_half]
  refine ⟨(evenIndexed_even_elements v).1, fun j hj => ⟨by omega, ?_⟩⟩
  exact (evenIndexed_even_elements v).2 j hj

/-! ## The generated test vectors -/

theorem create_test_vector_eq {n : Nat} (hn : n < 18446744073709551615) :
    create_test_vector n = some (List.range' 1 n) := by
  simp only [create_test_vector]
  rw [size_t_wrap_of_lt (by omega : n + 1 < 18446744073709551616), if_pos (by omega),
    Nat.add_sub_cancel]

theorem even_elements_range' (n : Nat) :
    even_elements (List.range' 1 n) = odd_numbers ((n + 1) / 2) := by
  refine evenIndexed_unique (evenIndexed_even_elements _) ⟨?_, ?_⟩
  · simp [odd_numbers]
  · intro j hj
    simp only [List.length_range'] at hj
    have h2 : 2 * j < n := by omega
    simp only [odd_numbers, List.getElem?_map, List.getElem?_range hj, Option.map_some']
    rw [List.getElem?_range' 1 1 h2]
    simp only [Option.some.injEq]
    omega

theorem run_functions_range' (shared : Bool) {n : Nat} (hn : n < 18446744073709551616) :
    run_functions (List.range' 1 n) (functions_to_test shared) =
      some [odd_numbers ((n + 1) / 2), odd_numbers ((n + 1) / 2), odd_numbers ((n + 1) / 2)] := by
  have hlen : (List.range' 1 n).length < 18446744073709551616 := by
    rw [List.length_range']
    exact hn
  simp only [run_functions, functions_to_test, remove_second_eq size_t_ops _ hlen,
    remove_second_using_remove_if_eq,
    remove_second_using_ranges_eq size_t_ops (fun _ => rfl) _ hlen, even_elements_range']

theorem check_if_all_equal_three (r : List Nat) : check_if_all_equal [r, r, r] = true := by
  simp [check_if_all_equal, adjacent_find]

theorem performance_loop_registered (shared : Bool) :
    ∀ sizes : List Nat, (∀ n ∈ sizes, n < 18446744073709551615) →
      performance_loop (functions_to_test shared) sizes = Outcome.no_return := by
  intro sizes
  induction sizes with
  | nil =>
    intro _
    rfl
  | cons n rest ih =>
    intro h
    have hn := h n (List.mem_cons_self n rest)
    simp only [performance_loop, create_test_vector_eq hn,
      run_functions_range' shared (by omega : n < 18446744073709551616),
      check_if_all_equal_three]
    exact ih (fun m hm => h m (List.mem_cons_of_mem n hm))

/-! ## The claims -/

/-- C1: for every vector `v` (its length `n` a `size_t`), `remove_second` ends
with the vector `[v[0], v[2], v[4], ...]`: its length is `ceil(n/2)` and for
every `j < ceil(n/2)` its `j`-th element is the original `v[2*j]`. -/
theorem remove_second_spec {α : Type} (ops : ElemOps α) (v : List α)
    (hv : v.length < 2 ^ 64) :
    ∃ r, remove_second ops v = some r ∧ r = even_elements v ∧
      r.length = ⌈(v.length : ℚ) / 2⌉₊ ∧
      ∀ j, j < ⌈(v.length : ℚ) / 2⌉₊ → 2 * j < v.length ∧ r[j]? = v[2 * j]? :=
  ⟨even_elements v, remove_second_eq ops v (size_bound hv), rfl, even_elements_spec v⟩

theorem remove_second_spec_witness :
    [10, 20, 30, 40, 50].length < 2 ^ 64 ∧
      ∃ r, remove_second size_t_ops [10, 20, 30, 40, 50] = some r ∧
        r = even_elements [10, 20, 30, 40, 50] ∧
        r.length = ⌈(([10, 20, 30, 40, 50] : List Nat).length : ℚ) / 2⌉₊ ∧
        ∀ j, j < ⌈(([10, 20, 30, 40, 50] : List Nat).length : ℚ) / 2⌉₊ →
          2 * j < [10, 20, 30, 40, 50].length ∧ r[j]? = [10, 20, 30, 40, 50][2 * j]? :=
  ⟨by decide, remove_second_spec size_t_ops [10, 20, 30, 40, 50] (by decide)⟩

/-- C2: for every vector `v`, `remove_second_using_remove_if` ends with the
elements of `v` at even indices in their original order: `std::remove_if` with
the parity counter returns the position `ceil(n/2)` with the kept elements
`v[0], v[2], ...` in front of it, and `erase` truncates the vector there.  This
holds whether or not the library copies the predicate. -/
theorem remove_second_using_remove_if_spec {α : Type} (ops : ElemOps α) (shared : Bool)
    (v : List α) :
    (∃ t, std_remove_if ops shared v 0 = some (t, ⌈(v.length : ℚ) / 2⌉₊) ∧
      t.length = v.length ∧ ∀ j, j < ⌈(v.length : ℚ) / 2⌉₊ → t[j]? = v[2 * j]?) ∧
    ∃ r, remove_second_using_remove_if ops shared v = some r ∧ r = even_elements v ∧
      r.length = ⌈(v.length : ℚ) / 2⌉₊ ∧
      ∀ j, j < ⌈(v.length : ℚ) / 2⌉₊ → 2 * j < v.length ∧ r[j]? = v[2 * j]? := by
  refine ⟨?_, even_elements v, remove_second_using_remove_if_eq ops shared v, rfl,
    even_elements_spec v⟩
  rw [ceil_half]
  exact std_remove_if_compacted ops shared v

/-- C3 (evaluation at a vector of strings): `remove_second_using_ranges` starts
by moving slot `0` onto itself, `target[0] = std::move(target[0])`.  On the
vector `["a", "b", "c"]` of `std::string` that empties the first element: the
function returns `["", "c"]`, not the elements `["a", "c"]` at the even
indices.  In general the function returns the even-indexed elements of the
vector whose first element has been move-assigned from itself; for an element
type that such an assignment leaves unchanged, as `size_t`, they are the
even-indexed elements of `v`, `ceil(n/2)` of them, `v[2*j]` at position `j`. -/
theorem remove_second_using_ranges_on_strings :
    move_assign string_ops ["a", "b", "c"] 0 0 = some ["", "b", "c"] ∧
    ranges_move_stride string_ops 3 ["a", "b", "c"] 0 0 = some ["", "c", ""] ∧
    remove_second_using_ranges string_ops ["a", "b", "c"] = some ["", "c"] ∧
    even_elements ["a", "b", "c"] = ["a", "c"] ∧
    (∀ (α : Type) (ops : ElemOps α) (v : List α), v.length < 2 ^ 64 →
      remove_second_using_ranges ops v = some (even_elements (self_move_front ops v))) ∧
    ∀ (α : Type) (ops : ElemOps α) (v : List α), (∀ x, ops.self_moved x = x) →
      v.length < 2 ^ 64 →
      ∃ r, remove_second_using_ranges ops v = some r ∧ r = even_elements v ∧
        r.length = ⌈(v.length : ℚ) / 2⌉₊ ∧
        ∀ j, j < ⌈(v.length : ℚ) / 2⌉₊ → 2 * j < v.length ∧ r[j]? = v[2 * j]? := by
  refine ⟨by decide, by decide, by decide, by decide, ?_, ?_⟩
  · intro α ops v hv
    exact remove_second_using_ranges_front ops v (size_bound hv)
  · intro α ops v hself hv
    exact ⟨even_elements v, remove_second_using_ranges_eq ops hself v (size_bound hv), rfl,
      even_elements_spec v⟩

/-- C4 (evaluation at a vector of strings): on the vector `["a", "b", "c"]` of
`std::string` the strategies differ: `remove_second` and
`remove_second_using_remove_if` return `["a", "c"]`, while
`remove_second_using_ranges`, whose first step moves slot `0` onto itself,
returns `["", "c"]`.  The first two strategies agree on every vector, and all
three agree for an element type that a move assignment from itself leaves
unchanged, as `size_t`. -/
theorem strategies_differ_on_strings :
    remove_second string_ops ["a", "b", "c"] = some ["a", "c"] ∧
    remove_second_using_remove_if string_ops false ["a", "b", "c"] = some ["a", "c"] ∧
    remove_second_using_remove_if string_ops true ["a", "b", "c"] = some ["a", "c"] ∧
    remove_second_using_ranges string_ops ["a", "b", "c"] = some ["", "c"] ∧
    remove_second_using_ranges string_ops ["a", "b", "c"] ≠
      remove_second string_ops ["a", "b", "c"] ∧
    (∀ (α : Type) (ops : ElemOps α) (shared : Bool) (v : List α), v.length < 2 ^ 64 →
      ∃ r, remove_second ops v = some r ∧
        remove_second_using_remove_if ops shared v = some r) ∧
    ∀ (α : Type) (ops : ElemOps α) (shared : Bool) (v : List α),
      (∀ x, ops.self_moved x = x) → v.length < 2 ^ 64 →
      ∃ r, remove_second ops v = some r ∧
        remove_second_using_remove_if ops shared v = some r ∧
        remove_second_using_ranges ops v = some r := by
  refine ⟨by decide, by decide, by decide, by decide, by decide, ?_, ?_⟩
  · intro α ops shared v hv
    exact ⟨even_elements v, remove_second_eq ops v (size_bound hv),
      remove_second_using_remove_if_eq ops shared v⟩
  · intro α ops shared v hself hv
    exact ⟨even_elements v, remove_second_eq ops v (size_bound hv),
      remove_second_using_remove_if_eq ops shared v,
      remove_second_using_ranges_eq ops hself v (size_bound hv)⟩

/-- C5: for every vector of length `n` (a `size_t`) and each of the three
strategies, the length of the vector after the call is `n / 2 + n % 2` with
integer division; this number is `ceil(n/2)` and is at most `n`. -/
theorem result_length {α : Type} (ops : ElemOps α) (shared : Bool) (v : List α)
    (hv : v.length < 2 ^ 64) :
    (∃ r, remove_second ops v = some r ∧ r.length = v.length / 2 + v.length % 2) ∧
    (∃ r, remove_second_using_remove_if ops shared v = some r ∧
      r.length = v.length / 2 + v.length % 2) ∧
    (∃ r, remove_second_using_ranges ops v = some r ∧
      r.length = v.length / 2 + v.length % 2) ∧
    v.length / 2 + v.length % 2 = ⌈(v.length : ℚ) / 2⌉₊ ∧
    v.length / 2 + v.length % 2 ≤ v.length := by
  have hlen : (even_elements v).length = v.length / 2 + v.length % 2 := by
    rw [(evenIndexed_even_elements v).1]
    omega
  have hlen1 : (even_elements (self_move_front ops v)).length =
      v.length / 2 + v.length % 2 := by
    rw [(evenIndexed_even_elements _).1, length_self_move_front]
    omega
  refine ⟨⟨_, remove_second_eq ops v (size_bound hv), hlen⟩,
    ⟨_, remove_second_using_remove_if_eq ops shared v, hlen⟩,
    ⟨_, remove_second_using_ranges_front ops v (size_bound hv), hlen1⟩, ?_, by omega⟩
  rw [ceil_half]
  omega

theorem result_length_witness :
    [3, 1, 4, 1, 5].length < 2 ^ 64 ∧
    ((∃ r, remove_second size_t_ops [3, 1, 4, 1, 5] = some r ∧
      r.length = [3, 1, 4, 1, 5].length / 2 + [3, 1, 4, 1, 5].length % 2) ∧
    (∃ r, remove_second_using_remove_if size_t_ops true [3, 1, 4, 1, 5] = some r ∧
      r.length = [3, 1, 4, 1, 5].length / 2 + [3, 1, 4, 1, 5].length % 2) ∧
    (∃ r, remove_second_using_ranges size_t_ops [3, 1, 4, 1, 5] = some r ∧
      r.length = [3, 1, 4, 1, 5].length / 2 + [3, 1, 4, 1, 5].length % 2) ∧
    [3, 1, 4, 1, 5].length / 2 + [3, 1, 4, 1, 5].length % 2 =
      ⌈(([3, 1, 4, 1, 5] : List Nat).length : ℚ) / 2⌉₊ ∧
    [3, 1, 4, 1, 5].length / 2 + [3, 1, 4, 1, 5].length % 2 ≤ [3, 1, 4, 1, 5].length) :=
  ⟨by decide, result_length size_t_ops true [3, 1, 4, 1, 5] (by decide)⟩

/-- C6: every one of the three registered strategies maps each of the seven
fixed test vectors to its table entry (`[] -> []`, `[] -> []`, `[1,2] -> [1]`,
`[1,2,3] -> [1,3]`, `[1,2,3,4] -> [1,3]`, `[1,2,3,4,5] -> [1,3,5]`,
`[1,2,3,4,5,6] -> [1,3,5]`), and `run_validation_tests` called with the list
registered in `main` completes without throwing. -/
theorem validation_tests_pass (shared : Bool) :
    List.zip TEST_VECTORS EXPECTED_RESULTS =
      [([], []), ([], []), ([1, 2], [1]), ([1, 2, 3], [1, 3]), ([1, 2, 3, 4], [1, 3]),
        ([1, 2, 3, 4, 5], [1, 3, 5]), ([1, 2, 3, 4, 5, 6], [1, 3, 5])] ∧
    (functions_to_test shared).length = 3 ∧
    (∀ f ∈ functions_to_test shared, ∀ p ∈ List.zip TEST_VECTORS EXPECTED_RESULTS,
      f.func p.1 = some p.2) ∧
    run_validation_tests (functions_to_test shared) = Outcome.completed := by
  cases shared <;> decide

/-- C7 (evaluation at a one-element vector of strings): on the vector
`["hello"]` of `std::string`, `remove_second_using_ranges` moves slot `0` onto
itself and returns `[""]`, while `remove_second` and
`remove_second_using_remove_if` return `["hello"]`.  The empty vector stays
empty under all three strategies; the first two strategies leave every vector
of length at most one unchanged, and so does the third for an element type
that a move assignment from itself leaves unchanged, as `size_t`. -/
theorem single_string_emptied :
    remove_second_using_ranges string_ops ["hello"] = some [""] ∧
    remove_second string_ops ["hello"] = some ["hello"] ∧
    remove_second_using_remove_if string_ops false ["hello"] = some ["hello"] ∧
    remove_second_using_remove_if string_ops true ["hello"] = some ["hello"] ∧
    (∀ (α : Type) (ops : ElemOps α) (shared : Bool),
      remove_second ops ([] : List α) = some [] ∧
      remove_second_using_remove_if ops shared ([] : List α) = some [] ∧
      remove_second_using_ranges ops ([] : List α) = some []) ∧
    (∀ (α : Type) (ops : ElemOps α) (shared : Bool) (v : List α), v.length ≤ 1 →
      remove_second ops v = some v ∧ remove_second_using_remove_if ops shared v = some v) ∧
    ∀ (α : Type) (ops : ElemOps α) (v : List α), (∀ x, ops.self_moved x = x) →
      v.length ≤ 1 → remove_second_using_ranges ops v = some v := by
  have hfix : ∀ (α : Type) (v : List α), v.length ≤ 1 → even_elements v = v := by
    intro α v hv
    match v, hv with
    | [], _ => simp [even_elements]
    | [a], _ => simp [even_elements]
    | _ :: _ :: _, hv =>
      simp only [List.length_cons] at hv
      omega
  refine ⟨by decide, by decide, by decide, by decide, ?_, ?_, ?_⟩
  · intro α ops shared
    refine ⟨?_, ?_, ?_⟩
    · rw [remove_second_eq ops [] (by simp)]
      simp [even_elements]
    · rw [remove_second_using_remove_if_eq]
      simp [even_elements]
    · rw [remove_second_using_ranges_front ops [] (by simp)]
      simp [even_elements, self_move_front]
  · intro α ops shared v hv
    rw [remove_second_eq ops v (by omega), remove_second_using_remove_if_eq, hfix α v hv]
    exact ⟨rfl, rfl⟩
  · intro α ops v hself hv
    rw [remove_second_using_ranges_eq ops hself v (by omega), hfix α v hv]

/-- C8: idempotence does not hold: on the vector `[1,2,3]` every strategy
returns `[1,3]`, and applied once more it returns `[1]`, which differs from
`[1,3]` and is shorter. -/
theorem not_idempotent (shared : Bool) :
    ∃ v once twice : List Nat, v = [1, 2, 3] ∧ once = [1, 3] ∧ twice = [1] ∧
      remove_second size_t_ops v = some once ∧
      remove_second size_t_ops once = some twice ∧
      remove_second_using_remove_if size_t_ops shared v = some once ∧
      remove_second_using_remove_if size_t_ops shared once = some twice ∧
      remove_second_using_ranges size_t_ops v = some once ∧
      remove_second_using_ranges size_t_ops once = some twice ∧
      twice ≠ once ∧ twice.length < once.length := by
  refine ⟨[1, 2, 3], [1, 3], [1], rfl, rfl, rfl, ?_⟩
  cases shared <;> decide

/-- C9 as stated fails at the size `2^64 - 1`: the bound `size + 1` of the
generating range wraps to zero, `create_test_vector` does not produce the
vector `[1, ..., n]`, and the performance loop on that size has no defined
outcome.  On the sizes of the performance list the function does not end by
returning either: after the last agreement check it reaches its closing brace
without a `return` statement. -/
theorem performance_size_counterexample :
    create_test_vector (2 ^ 64 - 1) = none ∧
    performance_loop (functions_to_test false) [2 ^ 64 - 1] = Outcome.undefined ∧
    performance_loop (functions_to_test true) [2 ^ 64 - 1] = Outcome.undefined ∧
    run_performance_tests (functions_to_test false) = Outcome.no_return ∧
    run_performance_tests (functions_to_test true) = Outcome.no_return := by
  have h : create_test_vector (2 ^ 64 - 1) = none := by decide
  refine ⟨h, ?_, ?_, performance_loop_registered false PERFORMANCE_TEST_SIZES (by decide),
    performance_loop_registered true PERFORMANCE_TEST_SIZES (by decide)⟩
  · simp only [performance_loop, h]
  · simp only [performance_loop, h]

/-- C9 as amended: for every size `n < 2^64 - 1`, and so for every size of the
performance list, `create_test_vector n` is `[1, 2, ..., n]`, each of the three
registered strategies turns its copy into the odd numbers `[1, 3, 5, ...]` of
length `ceil(n/2)`, the three results are recorded, the agreement check on
them passes, and the loop goes on to the sizes after `n` without throwing for
`n`. -/
theorem performance_results_agree (shared : Bool) (n : Nat) (hn : n < 2 ^ 64 - 1) :
    create_test_vector n = some (List.range' 1 n) ∧
    (∀ f ∈ functions_to_test shared,
      f.func (List.range' 1 n) = some (odd_numbers ⌈(n : ℚ) / 2⌉₊)) ∧
    (odd_numbers ⌈(n : ℚ) / 2⌉₊).length = ⌈(n : ℚ) / 2⌉₊ ∧
    run_functions (List.range' 1 n) (functions_to_test shared) =
      some [odd_numbers ⌈(n : ℚ) / 2⌉₊, odd_numbers ⌈(n : ℚ) / 2⌉₊,
        odd_numbers ⌈(n : ℚ) / 2⌉₊] ∧
    check_if_all_equal [odd_numbers ⌈(n : ℚ) / 2⌉₊, odd_numbers ⌈(n : ℚ) / 2⌉₊,
      odd_numbers ⌈(n : ℚ) / 2⌉₊] = true ∧
    (∀ rest, performance_loop (functions_to_test shared) (n :: rest) =
      performance_loop (functions_to_test shared) rest) ∧
    PERFORMANCE_TEST_SIZES = [1000, 10000, 100000, 1000000, 10000000, 50000000] ∧
    ∀ size ∈ PERFORMANCE_TEST_SIZES, size < 2 ^ 64 - 1 := by
  have hn1 : n < 18446744073709551615 := by
    norm_num at hn
    exact hn
  have hlen : (List.range' 1 n).length < 18446744073709551616 := by
    rw [List.length_range']
    omega
  have hrun := run_functions_range' shared (by omega : n < 18446744073709551616)
  refine ⟨create_test_vector_eq hn1, ?_, ?_, ?_, check_if_all_equal_three _, ?_, rfl,
    by decide⟩
  · intro f hf
    rw [ceil_half, ← even_elements_range']
    simp only [functions_to_test, List.mem_cons, List.mem_singleton, List.not_mem_nil,
      or_false] at hf
    rcases hf with rfl | rfl | rfl
    · exact remove_second_eq size_t_ops _ hlen
    · exact remove_second_using_remove_if_eq size_t_ops shared _
    · exact remove_second_using_ranges_eq size_t_ops (fun _ => rfl) _ hlen
  · simp [odd_numbers]
  · rw [ceil_half]
    exact hrun
  · intro rest
    simp only [performance_loop, create_test_vector_eq hn1, hrun, check_if_all_equal_three]
    rfl

theorem performance_results_agree_witness :
    10 < 2 ^ 64 - 1 ∧
    (create_test_vector 10 = some (List.range' 1 10) ∧
    (∀ f ∈ functions_to_test false,
      f.func (List.range' 1 10) = some (odd_numbers ⌈((10 : Nat) : ℚ) / 2⌉₊)) ∧
    (odd_numbers ⌈((10 : Nat) : ℚ) / 2⌉₊).length = ⌈((10 : Nat) : ℚ) / 2⌉₊ ∧
    run_functions (List.range' 1 10) (functions_to_test false) =
      some [odd_numbers ⌈((10 : Nat) : ℚ) / 2⌉₊, odd_numbers ⌈((10 : Nat) : ℚ) / 2⌉₊,
        odd_numbers ⌈((10 : Nat) : ℚ) / 2⌉₊] ∧
    check_if_all_equal [odd_numbers ⌈((10 : Nat) : ℚ) / 2⌉₊,
      odd_numbers ⌈((10 : Nat) : ℚ) / 2⌉₊, odd_numbers ⌈((10 : Nat) : ℚ) / 2⌉₊] = true ∧
    (∀ rest, performance_loop (functions_to_test false) (10 :: rest) =
      performance_loop (functions_to_test false) rest) ∧
    PERFORMANCE_TEST_SIZES = [1000, 10000, 100000, 1000000, 10000000, 50000000] ∧
    ∀ size ∈ PERFORMANCE_TEST_SIZES, size < 2 ^ 64 - 1) :=
  ⟨by decide, performance_results_agree false 10 (by decide)⟩

/-- C10: for every `n` in `[0, 2^64 - 1]` the size `(n / 2) + (n % 2)` computed in
`size_t` arithmetic is `ceil(n/2)`, and neither operand nor the sum exceeds
`2^64 - 1`; the alternative `(n + 1) / 2` computed modulo `2^64` is `0` at
`n = 2^64 - 1`, where the size is `2^63`; the two agree for every `n < 2^64 - 1`. -/
theorem new_size_no_overflow (n : Nat) (hn : n < 2 ^ 64) :
    new_size n = ⌈(n : ℚ) / 2⌉₊ ∧
    n / 2 ≤ 2 ^ 64 - 1 ∧ n % 2 ≤ 2 ^ 64 - 1 ∧ n / 2 + n % 2 ≤ 2 ^ 64 - 1 ∧
    new_size_by_increment (2 ^ 64 - 1) = 0 ∧
    new_size (2 ^ 64 - 1) = 2 ^ 63 ∧
    (n < 2 ^ 64 - 1 → new_size_by_increment n = new_size n) := by
  have hn1 := size_bound hn
  refine ⟨?_, ?_, ?_, ?_, by decide, by decide, ?_⟩
  · rw [ceil_half, new_size_eq hn1]
  · norm_num
    omega
  · norm_num
    omega
  · norm_num
    omega
  · intro h
    norm_num at h
    rw [new_size_eq hn1]
    unfold new_size_by_increment size_t_wrap SIZE_T_RANGE
    omega

theorem new_size_no_overflow_witness :
    2 ^ 64 - 2 < 2 ^ 64 ∧
    (new_size (2 ^ 64 - 2) = ⌈((2 ^ 64 - 2 : Nat) : ℚ) / 2⌉₊ ∧
    (2 ^ 64 - 2) / 2 ≤ 2 ^ 64 - 1 ∧ (2 ^ 64 - 2) % 2 ≤ 2 ^ 64 - 1 ∧
    (2 ^ 64 - 2) / 2 + (2 ^ 64 - 2) % 2 ≤ 2 ^ 64 - 1 ∧
    new_size_by_increment (2 ^ 64 - 1) = 0 ∧
    new_size (2 ^ 64 - 1) = 2 ^ 63 ∧
    (2 ^ 64 - 2 < 2 ^ 64 - 1 → new_size_by_increment (2 ^ 64 - 2) = new_size (2 ^ 64 - 2))) :=
  ⟨by decide, new_size_no_overflow (2 ^ 64 - 2) (by decide)⟩

/-! ## The validation loop -/

theorem test_tables_at {i : Nat} (hi : i < 7) :
    ∃ test_vector expected,
      TEST_VECTORS[i]? = some test_vector ∧ EXPECTED_RESULTS[i]? = some expected := by
  have h1 : i < TEST_VECTORS.length := hi
  have h2 : i < EXPECTED_RESULTS.length := hi
  exact ⟨_, _, List.getElem?_eq_getElem h1, List.getElem?_eq_getElem h2⟩

theorem test_vectors_none {i : Nat} (hi : 7 ≤ i) : TEST_VECTORS[i]? = none :=
  List.getElem?_eq_none hi

/-- The inner loop either passes every function or throws at the first function
whose output differs from the expected vector. -/
theorem validate_functions_cases (test_vector expected : List Nat) :
    ∀ functions : List test_function,
      (∀ f ∈ functions, (f.func test_vector).isSome = true) →
      (validate_functions test_vector expected functions = Outcome.completed ∧
        ∀ (k : Nat) (f : test_function),
          functions[k]? = some f → f.func test_vector = some expected) ∨
      ∃ (k : Nat) (f : test_function) (out : List Nat),
        functions[k]? = some f ∧ f.func test_vector = some out ∧ out ≠ expected ∧
        (∀ k1, k1 < k → ∀ f1 : test_function,
          functions[k1]? = some f1 → f1.func test_vector = some expected) ∧
        validate_functions test_vector expected functions =
          Outcome.threw (validation_message f.name test_vector.length) := by
  intro functions
  induction functions with
  | nil =>
    intro _
    left
    exact ⟨rfl, fun k f h => by simp at h⟩
  | cons g rest ih =>
    intro hsome
    obtain ⟨out, hout⟩ := Option.isSome_iff_exists.mp (hsome g (List.mem_cons_self g rest))
    by_cases hne : out = expected
    · subst hne
      rcases ih (fun f hf => hsome f (List.mem_cons_of_mem g hf)) with ⟨hdone, hall⟩ | hthrow
      · left
        refine ⟨?_, ?_⟩
        · simp only [validate_functions, hout, ne_eq, not_true_eq_false, if_false]
          exact hdone
        · intro k f hk
          cases k with
          | zero =>
            simp only [List.getElem?_cons_zero, Option.some.injEq] at hk
            subst hk
            exact hout
          | succ k =>
            simp only [List.getElem?_cons_succ] at hk
            exact hall k f hk
      · obtain ⟨k, f, o, hk, hfo, hdiff, hbefore, hres⟩ := hthrow
        right
        refine ⟨k + 1, f, o, by simpa using hk, hfo, hdiff, ?_, ?_⟩
        · intro k1 hk1 f1 hf1
          cases k1 with
          | zero =>
            simp only [List.getElem?_cons_zero, Option.some.injEq] at hf1
            subst hf1
            exact hout
          | succ k1 =>
            simp only [List.getElem?_cons_succ] at hf1
            exact hbefore k1 (by omega) f1 hf1
        · simp only [validate_functions, hout, ne_eq, not_true_eq_false, if_false]
          exact hres
    · right
      refine ⟨0, g, out, List.getElem?_cons_zero, hout, hne, fun k1 hk1 => absurd hk1 (Nat.not_lt_zero k1), ?_⟩
      simp only [validate_functions, hout, ne_eq, hne, not_false_eq_true, if_true]

theorem mismatch_row {functions : List test_function} {i k : Nat} {test_vector expected : List Nat}
    (htv : TEST_VECTORS[i]? = some test_vector) (hex : EXPECTED_RESULTS[i]? = some expected)
    (h : Mismatch functions i k) :
    ∃ (f : test_function) (out : List Nat),
      functions[k]? = some f ∧ f.func test_vector = some out ∧ out ≠ expected := by
  obtain ⟨tv, ex, f, out, h1, h2, h3, h4, h5⟩ := h
  rw [htv] at h1
  rw [hex] at h2
  cases h1
  cases h2
  exact ⟨f, out, h3, h4, h5⟩

/-- The outer loop either passes every remaining test vector or throws at the
first mismatch, test vectors first and functions second. -/
theorem validation_loop_cases (functions : List test_function)
    (hsome : ∀ f ∈ functions, ∀ tv ∈ TEST_VECTORS, (f.func tv).isSome = true) :
    ∀ remaining i : Nat, i + remaining = 7 →
      (validation_loop functions remaining i = Outcome.completed ∧
        ∀ i1 k, i ≤ i1 → ¬ Mismatch functions i1 k) ∨
      ∃ (i0 k : Nat) (test_vector : List Nat) (f : test_function),
        TEST_VECTORS[i0]? = some test_vector ∧ functions[k]? = some f ∧
        Mismatch functions i0 k ∧
        (∀ i1 k1, i ≤ i1 → (i1 < i0 ∨ (i1 = i0 ∧ k1 < k)) → ¬ Mismatch functions i1 k1) ∧
        validation_loop functions remaining i =
          Outcome.threw (validation_message f.name test_vector.length) := by
  intro remaining
  induction remaining with
  | zero =>
    intro i hi
    left
    refine ⟨rfl, ?_⟩
    rintro i1 k hi1 ⟨tv, _, _, _, htv, _⟩
    rw [test_vectors_none (by omega)] at htv
    cases htv
  | succ remaining ih =>
    intro i hi
    obtain ⟨tv, ex, htv, hex⟩ := test_tables_at (by omega : i < 7)
    have hmem : tv ∈ TEST_VECTORS := List.getElem?_mem htv
    rcases validate_functions_cases tv ex functions (fun f hf => hsome f hf tv hmem) with
      ⟨hdone, hall⟩ | ⟨k, f, out, hk, hfo, hdiff, hbefore, hres⟩
    · have hrow : ∀ k, ¬ Mismatch functions i k := by
        intro k hm
        obtain ⟨f, out, hf, hfo, hdiff⟩ := mismatch_row htv hex hm
        rw [hall k f hf] at hfo
        cases hfo
        exact hdiff rfl
      have hstep : validation_loop functions (remaining + 1) i =
          validation_loop functions remaining (i + 1) := by
        simp only [validation_loop, htv, hex, hdone]
      rcases ih (i + 1) (by omega) with ⟨hrest, hno⟩ | ⟨i0, k, tv0, f, h1, h2, h3, h4, h5⟩
      · left
        refine ⟨hstep.trans hrest, ?_⟩
        intro i1 k hi1
        by_cases heq : i1 = i
        · subst heq
          exact hrow k
        · exact hno i1 k (by omega)
      · right
        refine ⟨i0, k, tv0, f, h1, h2, h3, ?_, hstep.trans h5⟩
        intro i1 k1 hi1 hlt
        by_cases heq : i1 = i
        · subst heq
          exact hrow k1
        · exact h4 i1 k1 (by omega) hlt
    · right
      refine ⟨i, k, tv, f, htv, hk, ⟨tv, ex, f, out, htv, hex, hk, hfo, hdiff⟩, ?_, ?_⟩
      · rintro i1 k1 hi1 (hlt | ⟨heq, hlt⟩)
        · omega
        · subst heq
          intro hm
          obtain ⟨f1, out1, hf1, hfo1, hdiff1⟩ := mismatch_row htv hex hm
          rw [hbefore k1 hlt f1 hf1] at hfo1
          cases hfo1
          exact hdiff1 rfl
      · simp only [validation_loop, htv, hex, hres]

/-- C11: for every list of registered functions that return on the test
vectors, `run_validation_tests` throws if and only if some function's output on
some test vector differs from the expected vector, and completes otherwise;
when it throws, it does so at the first mismatch, test vectors first and
functions second, and the message names that function and the size of that
test vector.  Every function is applied to the table entry itself, whatever
the functions before it did to their copies. -/
theorem run_validation_tests_spec (functions : List test_function)
    (hsome : ∀ f ∈ functions, ∀ tv ∈ TEST_VECTORS, (f.func tv).isSome = true) :
    ((∃ msg, run_validation_tests functions = Outcome.threw msg) ↔
      ∃ i k, Mismatch functions i k) ∧
    ((¬ ∃ i k, Mismatch functions i k) →
      run_validation_tests functions = Outcome.completed) ∧
    ∀ msg, run_validation_tests functions = Outcome.threw msg →
      ∃ (i k : Nat) (test_vector : List Nat) (f : test_function),
        TEST_VECTORS[i]? = some test_vector ∧ functions[k]? = some f ∧
        Mismatch functions i k ∧
        (∀ i1 k1, (i1 < i ∨ (i1 = i ∧ k1 < k)) → ¬ Mismatch functions i1 k1) ∧
        msg = "ERROR: " ++ f.name ++ " failed for the test vector of size " ++
          toString test_vector.length ++ "!\n" := by
  have hcases := validation_loop_cases functions hsome 7 0 rfl
  refine ⟨⟨?_, ?_⟩, ?_, ?_⟩
  · rintro ⟨msg, hmsg⟩
    rcases hcases with ⟨hdone, _⟩ | ⟨i0, k, _, _, _, _, hm, _, _⟩
    · rw [run_validation_tests] at hmsg
      rw [show validation_loop functions TEST_VECTORS.length 0 = Outcome.completed from hdone]
        at hmsg
      cases hmsg
    · exact ⟨i0, k, hm⟩
  · rintro ⟨i, k, hm⟩
    rcases hcases with ⟨_, hno⟩ | ⟨_, _, tv, f, _, _, _, _, hres⟩
    · exact absurd hm (hno i k (Nat.zero_le i))
    · exact ⟨_, hres⟩
  · intro hno
    rcases hcases with ⟨hdone, _⟩ | ⟨i0, k, _, _, _, _, hm, _, _⟩
    · exact hdone
    · exact absurd ⟨i0, k, hm⟩ hno
  · intro msg hmsg
    rcases hcases with ⟨hdone, _⟩ | ⟨i0, k, tv, f, htv, hf, hm, hfirst, hres⟩
    · rw [run_validation_tests] at hmsg
      rw [show validation_loop functions TEST_VECTORS.length 0 = Outcome.completed from hdone]
        at hmsg
      cases hmsg
    · refine ⟨i0, k, tv, f, htv, hf, hm, fun i1 k1 h => hfirst i1 k1 (Nat.zero_le i1) h, ?_⟩
      rw [run_validation_tests] at hmsg
      rw [show validation_loop functions TEST_VECTORS.length 0 = _ from hres] at hmsg
      cases hmsg
      rfl

theorem run_validation_tests_spec_witness :
    (∀ f ∈ sample_functions, ∀ tv ∈ TEST_VECTORS, (f.func tv).isSome = true) ∧
    (((∃ msg, run_validation_tests sample_functions = Outcome.threw msg) ↔
      ∃ i k, Mismatch sample_functions i k) ∧
    ((¬ ∃ i k, Mismatch sample_functions i k) →
      run_validation_tests sample_functions = Outcome.completed) ∧
    ∀ msg, run_validation_tests sample_functions = Outcome.threw msg →
      ∃ (i k : Nat) (test_vector : List Nat) (f : test_function),
        TEST_VECTORS[i]? = some test_vector ∧
        sample_functions[k]? = some f ∧ Mismatch sample_functions i k ∧
        (∀ i1 k1, (i1 < i ∨ (i1 = i ∧ k1 < k)) → ¬ Mismatch sample_functions i1 k1) ∧
        msg = "ERROR: " ++ f.name ++ " failed for the test vector of size " ++
          toString test_vector.length ++ "!\n") :=
  ⟨by decide, run_validation_tests_spec sample_functions (by decide)⟩

/-! ## The entry point -/

theorem main_eval (functions : List test_function) :
    main functions =
      match run_validation_tests functions with
      | Outcome.threw _ => some 1
      | Outcome.completed =>
        match run_performance_tests functions with
        | Outcome.threw _ => some 1
        | Outcome.completed => some 0
        | Outcome.no_return => none
        | Outcome.undefined => none
      | Outcome.no_return => none
      | Outcome.undefined => none := rfl

theorem main_of_no_return {functions : List test_function}
    (hval : run_validation_tests functions = Outcome.completed)
    (hperf : run_performance_tests functions = Outcome.no_return) : main functions = none := by
  rw [main_eval, hval]
  simp only
  rw [hperf]

/-- No path of the performance loop ends with a `return` statement. -/
theorem performance_loop_ne_completed (functions : List test_function) :
    ∀ sizes : List Nat, performance_loop functions sizes ≠ Outcome.completed := by
  intro sizes
  induction sizes with
  | nil =>
    intro h
    cases h
  | cons n rest ih =>
    intro h
    simp only [performance_loop] at h
    cases hvec : create_test_vector n with
    | none =>
      rw [hvec] at h
      cases h
    | some vec =>
      rw [hvec] at h
      simp only at h
      cases hres : run_functions vec functions with
      | none =>
        rw [hres] at h
        cases h
      | some results =>
        rw [hres] at h
        simp only at h
        cases hc : check_if_all_equal results with
        | false =>
          rw [hc] at h
          simp at h
        | true =>
          rw [hc] at h
          simp only [Bool.not_true, Bool.false_eq_true, if_false] at h
          exact ih h

/-- An exception from either phase gives the exit status `1`, and the status is
`1` only then; the performance phase matters only after the validation phase
has completed. -/
theorem main_status_one_iff (functions : List test_function) :
    main functions = some 1 ↔
      (∃ msg, run_validation_tests functions = Outcome.threw msg) ∨
      (run_validation_tests functions = Outcome.completed ∧
        ∃ msg, run_performance_tests functions = Outcome.threw msg) := by
  rw [main_eval]
  cases hval : run_validation_tests functions with
  | threw msg => simp
  | completed =>
    cases hperf : run_performance_tests functions <;> simp
  | no_return => simp
  | undefined => simp

/-- C12 (evaluation at the registered list): with the three strategies
registered in `main` the validation phase completes and the performance phase
throws nothing, but it ends by reaching the closing brace of
`run_performance_tests` without a `return` statement, so the exit status of
`main` is not defined; for no list of functions does `run_performance_tests`
return, and so for none is the exit status `0` defined. -/
theorem main_registered_status (shared : Bool) :
    run_validation_tests (functions_to_test shared) = Outcome.completed ∧
    run_performance_tests (functions_to_test shared) = Outcome.no_return ∧
    main (functions_to_test shared) = none ∧
    (∀ functions, run_performance_tests functions ≠ Outcome.completed) ∧
    ∀ functions, main functions ≠ some 0 := by
  have hval : run_validation_tests (functions_to_test shared) = Outcome.completed := by
    cases shared <;> decide
  have hperf : run_performance_tests (functions_to_test shared) = Outcome.no_return :=
    performance_loop_registered shared PERFORMANCE_TEST_SIZES (by decide)
  have hnever : ∀ functions, run_performance_tests functions ≠ Outcome.completed :=
    fun functions => performance_loop_ne_completed functions PERFORMANCE_TEST_SIZES
  refine ⟨hval, hperf, main_of_no_return hval hperf, hnever, ?_⟩
  intro functions h
  rw [main_eval] at h
  cases hv : run_validation_tests functions with
  | threw msg =>
    rw [hv] at h
    simp at h
  | completed =>
    rw [hv] at h
    simp only at h
    cases hp : run_performance_tests functions with
    | completed => exact hnever functions hp
    | threw msg =>
      rw [hp] at h
      simp at h
    | no_return =>
      rw [hp] at h
      simp at h
    | undefined =>
      rw [hp] at h
      simp at h
  | no_return =>
    rw [hv] at h
    simp at h
  | undefined =>
    rw [hv] at h
    simp at h

/-! ## The agreement check -/

theorem adjacent_find_end_iff :
    ∀ (v : List (List Nat)) (pos : Nat),
      adjacent_find (fun a b => decide (a ≠ b)) v pos = pos + v.length ↔
        ∀ a ∈ v, ∀ b ∈ v, a = b := by
  intro v
  induction v with
  | nil =>
    intro pos
    simp [adjacent_find]
  | cons x rest ih =>
    intro pos
    cases rest with
    | nil => simp [adjacent_find]
    | cons y rest =>
      by_cases hxy : x = y
      · subst hxy
        have hstep : adjacent_find (fun a b => decide (a ≠ b)) (x :: x :: rest) pos =
            adjacent_find (fun a b => decide (a ≠ b)) (x :: rest) (pos + 1) := by
          simp [adjacent_find]
        rw [hstep]
        have hlen : pos + (x :: x :: rest).length = pos + 1 + (x :: rest).length := by
          simp only [List.length_cons]
          omega
        rw [hlen, ih (pos + 1)]
        constructor
        · intro h a ha b hb
          have ha1 : a ∈ x :: rest := by
            rcases List.mem_cons.mp ha with rfl | ha
            · exact List.mem_cons_self _ _
            · exact ha
          have hb1 : b ∈ x :: rest := by
            rcases List.mem_cons.mp hb with rfl | hb
            · exact List.mem_cons_self _ _
            · exact hb
          exact h a ha1 b hb1
        · intro h a ha b hb
          exact h a (List.mem_cons_of_mem _ ha) b (List.mem_cons_of_mem _ hb)
      · have hstep : adjacent_find (fun a b => decide (a ≠ b)) (x :: y :: rest) pos = pos := by
          simp [adjacent_find, hxy]
        rw [hstep]
        constructor
        · intro h
          simp only [List.length_cons] at h
          omega
        · intro h
          exact absurd (h x (List.mem_cons_self _ _) y
            (List.mem_cons_of_mem _ (List.mem_cons_self _ _))) hxy

theorem check_if_all_equal_iff (v : List (List Nat)) :
    check_if_all_equal v = true ↔ ∀ a ∈ v, ∀ b ∈ v, a = b := by
  have h := adjacent_find_end_iff v 0
  simp only [Nat.zero_add] at h
  simp only [check_if_all_equal, decide_eq_true_eq]
  exact h

/-- C13: `check_if_all_equal` returns true if and only if every vector of the
list is identical to every other one; it returns true for an empty and for a
one-element list; and for a size whose results are `results`,
`run_performance_tests` throws, naming that size, exactly when the check
returns false, and otherwise goes on to the next size. -/
theorem check_if_all_equal_spec (functions : List test_function) (test_size : Nat)
    (rest : List Nat) (vec : List Nat) (results : List (List Nat))
    (hvec : create_test_vector test_size = some vec)
    (hres : run_functions vec functions = some results) :
    (check_if_all_equal results = true ↔ ∀ a ∈ results, ∀ b ∈ results, a = b) ∧
    check_if_all_equal [] = true ∧
    (∀ r, check_if_all_equal [r] = true) ∧
    (check_if_all_equal results = false ↔
      ∃ msg, performance_loop functions [test_size] = Outcome.threw msg) ∧
    (check_if_all_equal results = false →
      performance_loop functions (test_size :: rest) =
        Outcome.threw ("ERROR: results differ between methods for size " ++
          toString test_size)) ∧
    (check_if_all_equal results = true →
      performance_loop functions (test_size :: rest) = performance_loop functions rest) := by
  refine ⟨check_if_all_equal_iff results, by decide, ?_, ?_, ?_, ?_⟩
  · intro r
    simp [check_if_all_equal, adjacent_find]
  · constructor
    · intro h
      refine ⟨performance_message test_size, ?_⟩
      simp [performance_loop, hvec, hres, h]
    · rintro ⟨msg, hmsg⟩
      cases hc : check_if_all_equal results with
      | false => rfl
      | true =>
        simp [performance_loop, hvec, hres, hc] at hmsg
  · intro h
    simp [performance_loop, hvec, hres, h, performance_message]
  · intro h
    simp [performance_loop, hvec, hres, h]

theorem check_if_all_equal_spec_witness :
    create_test_vector 4 = some [1, 2, 3, 4] ∧
    run_functions [1, 2, 3, 4] sample_functions = some [[1, 3], [1, 2, 3, 4]] ∧
    ((check_if_all_equal [[1, 3], [1, 2, 3, 4]] = true ↔
      ∀ a ∈ [[1, 3], [1, 2, 3, 4]], ∀ b ∈ [[1, 3], [1, 2, 3, 4]], a = b) ∧
    check_if_all_equal [] = true ∧
    (∀ r, check_if_all_equal [r] = true) ∧
    (check_if_all_equal [[1, 3], [1, 2, 3, 4]] = false ↔
      ∃ msg, performance_loop sample_functions [4] = Outcome.threw msg) ∧
    (check_if_all_equal [[1, 3], [1, 2, 3, 4]] = false →
      performance_loop sample_functions (4 :: [5, 6]) =
        Outcome.threw ("ERROR: results differ between methods for size " ++
          toString 4)) ∧
    (check_if_all_equal [[1, 3], [1, 2, 3, 4]] = true →
      performance_loop sample_functions (4 :: [5, 6]) =
        performance_loop sample_functions [5, 6])) :=
  ⟨by decide, by decide,
    check_if_all_equal_spec sample_functions 4 [5, 6] [1, 2, 3, 4] [[1, 3], [1, 2, 3, 4]]
      (by decide) (by decide)⟩

/-! ## The loop of `remove_second`, iteration by iteration -/

theorem loopState_start {α : Type} (ops : ElemOps α) (v : List α) : LoopState ops v v 0 := by
  refine ⟨rfl, ?_, fun _ _ _ => rfl, ?_⟩
  · intro k hk
    have : k = 0 := by omega
    subst this
    rfl
  · intro k h1 _ h2
    omega

theorem move_assign_loopState {α : Type} (ops : ElemOps α) {v t : List α} {i : Nat}
    (h : LoopState ops v t i) (hi : 2 * (i + 1) < v.length) :
    ∃ t1, move_assign ops t (i + 1) (2 * (i + 1)) = some t1 ∧ LoopState ops v t1 (i + 1) := by
  obtain ⟨hlen, hfront, hkeep, hmoved⟩ := h
  have hsrc : 2 * (i + 1) < t.length := by omega
  have hx : t[2 * (i + 1)]? = some (t[2 * (i + 1)]) := List.getElem?_eq_getElem hsrc
  have hdst : i + 1 < t.length := by omega
  have horig : v[2 * (i + 1)]? = some (t[2 * (i + 1)]) := by
    rw [← hx]
    exact (hkeep _ (by omega) (Or.inr (by omega))).symm
  refine ⟨(t.set (2 * (i + 1)) (ops.moved t[2 * (i + 1)])).set (i + 1) t[2 * (i + 1)],
    ?_, ?_, ?_, ?_, ?_⟩
  · simp [move_assign, hx, hdst]
  · simp [hlen]
  · intro k hk
    by_cases hkd : k = i + 1
    · subst hkd
      rw [List.getElem?_set_self (by simpa using hdst), horig]
    · rw [List.getElem?_set_ne (Ne.symm hkd), List.getElem?_set_ne (by omega)]
      exact hfront k (by omega)
  · intro k hk hodd
    rw [List.getElem?_set_ne (by omega), List.getElem?_set_ne (by omega)]
    exact hkeep k (by omega) (by omega)
  · intro k hk heven hle
    rw [List.getElem?_set_ne (by omega)]
    by_cases hks : k = 2 * (i + 1)
    · subst hks
      rw [List.getElem?_set_self hsrc, horig]
      rfl
    · rw [List.getElem?_set_ne (Ne.symm hks)]
      exact hmoved k (by omega) heven (by omega)

/-- The loop run up to the bound `b` ends in the state after the iteration with
index `b - 1`. -/
theorem remove_second_loop_state {α : Type} (ops : ElemOps α) (v : List α)
    (hv : v.length < 18446744073709551616) (b : Nat) (hb : b ≤ (v.length + 1) / 2) :
    ∀ (fuel i : Nat) (t : List α), i + 1 + fuel = b → LoopState ops v t i →
      ∃ t1, remove_second_loop ops b fuel (i + 1) t = some t1 ∧ LoopState ops v t1 (b - 1) := by
  intro fuel
  induction fuel with
  | zero =>
    intro i t hfuel h
    refine ⟨t, ?_, ?_⟩
    · simp only [remove_second_loop]
      rw [if_neg (by omega)]
    · have : b - 1 = i := by omega
      rw [this]
      exact h
  | succ fuel ih =>
    intro i t hfuel h
    obtain ⟨t1, hmove, h1⟩ := move_assign_loopState ops h (by omega)
    obtain ⟨t2, hloop, h2⟩ := ih (i + 1) t1 (by omega) h1
    refine ⟨t2, ?_, h2⟩
    simp only [remove_second_loop]
    rw [if_pos (by omega), size_t_wrap_of_lt (by omega : (i + 1) * 2 < 18446744073709551616),
      size_t_wrap_of_lt (by omega : i + 1 + 1 < 18446744073709551616),
      (by omega : (i + 1) * 2 = 2 * (i + 1)), hmove]
    exact hloop

/-- The loop with the bound `ns` passes through the state in which the loop with
the smaller bound `b` ends. -/
theorem remove_second_loop_split {α : Type} (ops : ElemOps α) (ns b fuel2 : Nat)
    (hb : b ≤ ns) (hb2 : b < 18446744073709551616) :
    ∀ (fuel i : Nat) (t t1 : List α), i + fuel = b →
      remove_second_loop ops b fuel i t = some t1 →
      remove_second_loop ops ns (fuel + fuel2) i t = remove_second_loop ops ns fuel2 b t1 := by
  intro fuel
  induction fuel with
  | zero =>
    intro i t t1 hfuel hrun
    have hi : i = b := by omega
    subst hi
    simp only [remove_second_loop, Nat.lt_irrefl, if_false, Option.some.injEq] at hrun
    subst hrun
    rw [Nat.zero_add]
  | succ fuel ih =>
    intro i t t1 hfuel hrun
    simp only [remove_second_loop] at hrun
    rw [if_pos (by omega)] at hrun
    rw [(by omega : fuel + 1 + fuel2 = (fuel + fuel2) + 1)]
    simp only [remove_second_loop]
    rw [if_pos (by omega)]
    cases hmove : move_assign ops t i (size_t_wrap (i * 2)) with
    | none =>
      rw [hmove] at hrun
      cases hrun
    | some t2 =>
      rw [hmove] at hrun
      simp only at hrun ⊢
      rw [size_t_wrap_of_lt (by omega : i + 1 < 18446744073709551616)] at hrun ⊢
      exact ih (i + 1) t2 t1 (by omega) hrun


/-- C14: `remove_second` is total with every access in bounds: for a vector of
length `n` (a `size_t`) and every loop index `i` with `1 <= i < n/2 + n%2`, the
product `i * 2` does not wrap, the source index `2 * i` is below `n`, the
destination index `i` is below `n`, and the move succeeds on every vector of
length `n`; the loop and the function return, and the resize, to a size that is
at most `n`, only truncates. -/
theorem remove_second_in_bounds {α : Type} (ops : ElemOps α) (v : List α)
    (hv : v.length < 2 ^ 64) :
    new_size v.length = v.length / 2 + v.length % 2 ∧
    (∀ i, 1 ≤ i → i < v.length / 2 + v.length % 2 →
      i * 2 < 2 ^ 64 ∧ size_t_wrap (i * 2) = 2 * i ∧ 2 * i < v.length ∧ i < v.length ∧
      ∀ t : List α, t.length = v.length →
        (move_assign ops t i (size_t_wrap (i * 2))).isSome = true) ∧
    new_size v.length ≤ v.length ∧
    ∃ t r, remove_second_loop ops (new_size v.length) (new_size v.length) 1 v = some t ∧
      t.length = v.length ∧ remove_second ops v = some r ∧
      r = t.take (new_size v.length) ∧ r.length ≤ v.length := by
  have hv1 := size_bound hv
  have hns : new_size v.length = (v.length + 1) / 2 := new_size_eq hv1
  refine ⟨by rw [hns]; omega, ?_, by rw [hns]; omega, ?_⟩
  · intro i h1 hi
    have h2 : i * 2 < 18446744073709551616 := by omega
    refine ⟨by norm_num; omega, ?_, by omega, by omega, ?_⟩
    · rw [size_t_wrap_of_lt h2]
      omega
    · intro t ht
      have hsrc : i * 2 < t.length := by omega
      rw [size_t_wrap_of_lt h2]
      have hne : i ≠ i * 2 := by omega
      simp [move_assign, List.getElem?_eq_getElem hsrc, (by omega : i < t.length), hne]
  · obtain ⟨t, hloop, hlen, _⟩ :=
      remove_second_loop_compacted ops v hv1 ((v.length + 1) / 2) 1 v (Nat.le_refl 1)
        (by omega) (compacted_start v _)
    refine ⟨t, t.take ((v.length + 1) / 2), ?_, hlen, ?_, ?_, ?_⟩
    · rw [hns]
      exact hloop
    · simp only [remove_second]
      rw [hns, hloop]
      simp only
      rw [resize_of_le ops t (by omega)]
    · rw [hns]
    · rw [List.length_take]
      omega

theorem remove_second_in_bounds_witness :
    [5, 6, 7, 8, 9].length < 2 ^ 64 ∧
    (new_size [5, 6, 7, 8, 9].length = [5, 6, 7, 8, 9].length / 2 + [5, 6, 7, 8, 9].length % 2 ∧
    (∀ i, 1 ≤ i → i < [5, 6, 7, 8, 9].length / 2 + [5, 6, 7, 8, 9].length % 2 →
      i * 2 < 2 ^ 64 ∧ size_t_wrap (i * 2) = 2 * i ∧ 2 * i < [5, 6, 7, 8, 9].length ∧
      i < [5, 6, 7, 8, 9].length ∧
      ∀ t : List Nat, t.length = [5, 6, 7, 8, 9].length →
        (move_assign size_t_ops t i (size_t_wrap (i * 2))).isSome = true) ∧
    new_size [5, 6, 7, 8, 9].length ≤ [5, 6, 7, 8, 9].length ∧
    ∃ t r, remove_second_loop size_t_ops (new_size [5, 6, 7, 8, 9].length)
        (new_size [5, 6, 7, 8, 9].length) 1 [5, 6, 7, 8, 9] = some t ∧
      t.length = [5, 6, 7, 8, 9].length ∧ remove_second size_t_ops [5, 6, 7, 8, 9] = some r ∧
      r = t.take (new_size [5, 6, 7, 8, 9].length) ∧ r.length ≤ [5, 6, 7, 8, 9].length) :=
  ⟨by decide, remove_second_in_bounds size_t_ops [5, 6, 7, 8, 9] (by decide)⟩

/-- C15 as stated fails for an element type whose moved-from state differs from
its value: with `std::unique_ptr` elements, after the iteration with index `1`
on a vector of five pointers, position `2`, which is greater than `1`, holds
the null pointer and not its original value. -/
theorem loop_invariant_counterexample :
    ¬ ∀ (v : List (Option Nat)) (i : Nat), 1 ≤ i → i < new_size v.length →
      ∀ t, remove_second_loop unique_ptr_ops (i + 1) i 1 v = some t →
        ∀ k, i < k → t[k]? = v[k]? := by
  intro h
  have h2 := h [some 1, some 2, some 3, some 4, some 5] 1 (by decide) (by decide)
    [some 1, some 3, none, some 4, some 5] (by decide) 2 (by decide)
  revert h2
  decide

/-- C15 as amended: the loop invariant of `remove_second`.  For `1 <= i <
new_size`, the loop reaches a state `t` after the iteration with index `i`, from
which the rest of the loop continues; in it positions `0..i` hold the original
`v[0], v[2], ..., v[2*i]`; every position greater than `i` that is odd or
greater than `2*i` holds its original value; the even positions in `(i, 2*i]`,
the sources of the moves so far, hold the moved-from state of their original
value, which is the original value when moving is copying.  So position `0`
keeps its value, and the next source, at `2*(i+1)`, still holds its original
value. -/
theorem remove_second_loop_invariant {α : Type} (ops : ElemOps α) (v : List α) (i : Nat)
    (hv : v.length < 2 ^ 64) (h1 : 1 ≤ i) (hi : i < new_size v.length) :
    ∃ t, remove_second_loop ops (i + 1) i 1 v = some t ∧
      remove_second_loop ops (new_size v.length) (new_size v.length) 1 v =
        remove_second_loop ops (new_size v.length) (new_size v.length - i) (i + 1) t ∧
      t.length = v.length ∧
      (∀ k, k ≤ i → t[k]? = v[2 * k]?) ∧
      (∀ k, i < k → (k % 2 = 1 ∨ 2 * i < k) → t[k]? = v[k]?) ∧
      (∀ k, i < k → k % 2 = 0 → k ≤ 2 * i → t[k]? = (v[k]?).map ops.moved) ∧
      ((∀ x, ops.moved x = x) → ∀ k, i < k → t[k]? = v[k]?) ∧
      t[0]? = v[0]? ∧ t[2 * (i + 1)]? = v[2 * (i + 1)]? := by
  have hv1 := size_bound hv
  have hns : new_size v.length = (v.length + 1) / 2 := new_size_eq hv1
  rw [hns] at hi ⊢
  obtain ⟨t, hrun, hlen, hfront, hkeep, hmoved⟩ :=
    remove_second_loop_state ops v hv1 (i + 1) (by omega) i 0 v (by omega)
      (loopState_start ops v)
  rw [Nat.zero_add] at hrun
  rw [Nat.add_sub_cancel] at hfront hkeep hmoved
  refine ⟨t, hrun, ?_, hlen, hfront, hkeep, hmoved, ?_, ?_, ?_⟩
  · have hsplit := remove_second_loop_split ops ((v.length + 1) / 2) (i + 1)
      ((v.length + 1) / 2 - i) (by omega) (by omega) i 1 v t (by omega) hrun
    rw [(by omega : i + ((v.length + 1) / 2 - i) = (v.length + 1) / 2)] at hsplit
    exact hsplit
  · intro hid k hk
    by_cases hc : k % 2 = 1 ∨ 2 * i < k
    · exact hkeep k hk hc
    · rw [hmoved k hk (by omega) (by omega)]
      cases hvk : v[k]? with
      | none => rfl
      | some x => simp [hid x]
  · have := hfront 0 (Nat.zero_le i)
    simpa using this
  · exact hkeep _ (by omega) (Or.inr (by omega))

theorem remove_second_loop_invariant_witness :
    [1, 2, 3, 4, 5, 6, 7].length < 2 ^ 64 ∧ 1 ≤ 2 ∧ 2 < new_size [1, 2, 3, 4, 5, 6, 7].length ∧
    ∃ t, remove_second_loop size_t_ops (2 + 1) 2 1 [1, 2, 3, 4, 5, 6, 7] = some t ∧
      remove_second_loop size_t_ops (new_size [1, 2, 3, 4, 5, 6, 7].length)
          (new_size [1, 2, 3, 4, 5, 6, 7].length) 1 [1, 2, 3, 4, 5, 6, 7] =
        remove_second_loop size_t_ops (new_size [1, 2, 3, 4, 5, 6, 7].length)
          (new_size [1, 2, 3, 4, 5, 6, 7].length - 2) (2 + 1) t ∧
      t.length = [1, 2, 3, 4, 5, 6, 7].length ∧
      (∀ k, k ≤ 2 → t[k]? = [1, 2, 3, 4, 5, 6, 7][2 * k]?) ∧
      (∀ k, 2 < k → (k % 2 = 1 ∨ 2 * 2 < k) → t[k]? = [1, 2, 3, 4, 5, 6, 7][k]?) ∧
      (∀ k, 2 < k → k % 2 = 0 → k ≤ 2 * 2 →
        t[k]? = ([1, 2, 3, 4, 5, 6, 7][k]?).map size_t_ops.moved) ∧
      ((∀ x, size_t_ops.moved x = x) → ∀ k, 2 < k → t[k]? = [1, 2, 3, 4, 5, 6, 7][k]?) ∧
      t[0]? = [1, 2, 3, 4, 5, 6, 7][0]? ∧
      t[2 * (2 + 1)]? = [1, 2, 3, 4, 5, 6, 7][2 * (2 + 1)]? :=
  ⟨by decide, by decide, by decide,
    remove_second_loop_invariant size_t_ops [1, 2, 3, 4, 5, 6, 7] 2 (by decide) (by decide)
      (by decide)⟩

/-! ## The parity counter -/

theorem int_wrap_succ (x : Int) : int_wrap (int_wrap x + 1) = int_wrap (x + 1) := by
  unfold int_wrap
  omega

theorem counter_iterate (k : Nat) :
    Nat.iterate (fun c => (parity_pred c).2) k 0 = int_wrap k := by
  induction k with
  | zero => rfl
  | succ k ih =>
    rw [Function.iterate_succ_apply', ih]
    simp only [parity_pred]
    rw [int_wrap_succ]
    push_cast
    rfl

/-- C16: the removal decision depends on the position only.  The counter after
`k` increments from zero is `k` wrapped to 32 bits; it is a 32-bit value whose
low bit is the parity of `k`, so the predicate accepts exactly at odd `k`, also
beyond `2^31 - 1` (the increment at `2^31 - 1` wraps to `-2^31`, whose low bit
is zero); a counter whose low bit matches the parity of a position decides by
that position and still matches at the next position; the search stops at
position `1`, from where the shifting loop continues at position `2` with an
even counter; and for a vector of any length the function returns the
elements at the even positions, whatever the values. -/
theorem parity_counter_spec {α : Type} (ops : ElemOps α) (shared : Bool) (v : List α)
    (k : Nat) :
    Nat.iterate (fun c => (parity_pred c).2) k 0 = int_wrap k ∧
    -2 ^ 31 ≤ int_wrap k ∧ int_wrap k < 2 ^ 31 ∧
    int_wrap k % 2 = (k : Int) % 2 ∧
    (parity_pred (int_wrap k)).1 = decide (k % 2 = 1) ∧
    (parity_pred (2 ^ 31 - 1)).2 = -2 ^ 31 ∧
    (parity_pred (-2 ^ 31)).1 = false ∧
    (∀ (pos : Nat) (c : Int), c % 2 = (pos : Int) % 2 →
      (parity_pred c).1 = decide (pos % 2 = 1) ∧
      (parity_pred c).2 % 2 = ((pos + 1 : Nat) : Int) % 2) ∧
    (∀ n, find_if_parity (n + 2) 0 0 = (1, 2)) ∧
    remove_second_using_remove_if ops shared v = some (even_elements v) ∧
    (even_elements v).length = ⌈(v.length : ℚ) / 2⌉₊ ∧
    ∀ j, (even_elements v)[j]? = v[2 * j]? := by
  refine ⟨counter_iterate k, ?_, ?_, ?_, ?_, by decide, by decide, ?_, find_if_parity_two_le,
    remove_second_using_remove_if_eq ops shared v, (even_elements_spec v).1,
    getElem?_even_elements v.length v rfl⟩
  · unfold int_wrap
    norm_num
    omega
  · unfold int_wrap
    norm_num
    omega
  · unfold int_wrap
    omega
  · have h : int_wrap k % 2 = (k : Int) % 2 := by
      unfold int_wrap
      omega
    rw [parity_pred_fst]
    by_cases hk : k % 2 = 1
    · have : int_wrap k % 2 ≠ 0 := by omega
      simp [hk, this]
    · have : int_wrap k % 2 = 0 := by omega
      simp [hk, this]
  · intro pos c hc
    refine ⟨?_, ?_⟩
    · rw [parity_pred_fst]
      by_cases hk : pos % 2 = 1
      · have : c % 2 ≠ 0 := by omega
        simp [hk, this]
      · have : c % 2 = 0 := by omega
        simp [hk, this]
    · rw [parity_pred_snd_mod]
      push_cast
      omega

/-- C17: for every `size < 2^64 - 1`, `create_test_vector` returns a vector of
length `size` whose element at index `i` is `i + 1`, a value that fits a
`size_t`; for `size = 0` it returns the empty vector. -/
theorem create_test_vector_spec (size : Nat) (hsize : size < 2 ^ 64 - 1) :
    (∃ vec, create_test_vector size = some vec ∧ vec.length = size ∧
      ∀ i, i < size → vec[i]? = some (i + 1) ∧ i + 1 < 2 ^ 64) ∧
    create_test_vector 0 = some [] := by
  have h1 : size < 18446744073709551615 := by
    norm_num at hsize
    exact hsize
  refine ⟨⟨List.range' 1 size, create_test_vector_eq h1, List.length_range' _ _ _, ?_⟩, by decide⟩
  intro i hi
  refine ⟨?_, by norm_num; omega⟩
  rw [List.getElem?_range' 1 1 hi]
  simp only [Option.some.injEq]
  omega

theorem create_test_vector_spec_witness :
    3 < 2 ^ 64 - 1 ∧
    ((∃ vec, create_test_vector 3 = some vec ∧ vec.length = 3 ∧
      ∀ i, i < 3 → vec[i]? = some (i + 1) ∧ i + 1 < 2 ^ 64) ∧
    create_test_vector 0 = some []) :=
  ⟨by decide, create_test_vector_spec 3 (by decide)⟩

/-! ## Naturality and repeated compaction -/

theorem even_elements_map {α β : Type} (f : α → β) :
    ∀ (n : Nat) (v : List α), v.length = n →
      even_elements (v.map f) = (even_elements v).map f := by
  intro n
  induction n using Nat.strong_induction_on with
  | _ n ih =>
    intro v hv
    match v, hv with
    | [], _ => simp [even_elements]
    | [a], _ => simp [even_elements]
    | a :: b :: rest, hv =>
      simp only [List.length_cons] at hv
      simp only [List.map_cons, even_elements, List.cons.injEq, true_and]
      exact ih rest.length (by omega) rest rfl

theorem self_move_front_map {α β : Type} (ops : ElemOps α) (ops1 : ElemOps β) (f : α → β)
    (hcomm : ∀ x, ops1.self_moved (f x) = f (ops.self_moved x)) (v : List α) :
    self_move_front ops1 (v.map f) = (self_move_front ops v).map f := by
  cases v with
  | nil => rfl
  | cons a rest => simp [self_move_front, hcomm a]

/-- C18 (evaluation at the map from numbers to strings): with `f` the decimal
representation, `remove_second_using_ranges` on the image `["1", "2", "3"]` of
`[1, 2, 3]` returns `["", "3"]`, because its first step moves the string in
slot `0` onto itself, whereas the image of its result `[1, 3]` on `[1, 2, 3]`
is `["1", "3"]`.  The strategies `remove_second` and
`remove_second_using_remove_if` commute with every `f` on every vector, and
keep the same positions of two vectors of the same length; so does
`remove_second_using_ranges` when `f` commutes with the move assignment of an
element from itself, as it does when that assignment changes nothing. -/
theorem ranges_not_natural :
    List.map (fun n : Nat => toString n) [1, 2, 3] = ["1", "2", "3"] ∧
    remove_second_using_ranges string_ops (List.map (fun n : Nat => toString n) [1, 2, 3]) =
      some ["", "3"] ∧
    (remove_second_using_ranges size_t_ops [1, 2, 3]).map
      (List.map (fun n : Nat => toString n)) = some ["1", "3"] ∧
    remove_second_using_ranges string_ops (List.map (fun n : Nat => toString n) [1, 2, 3]) ≠
      (remove_second_using_ranges size_t_ops [1, 2, 3]).map
        (List.map (fun n : Nat => toString n)) ∧
    (∀ (α β : Type) (ops : ElemOps α) (ops1 : ElemOps β) (shared : Bool) (f : α → β)
      (v : List α), v.length < 2 ^ 64 →
      remove_second ops1 (v.map f) = (remove_second ops v).map (List.map f) ∧
      remove_second_using_remove_if ops1 shared (v.map f) =
        (remove_second_using_remove_if ops shared v).map (List.map f)) ∧
    (∀ (α β : Type) (ops : ElemOps α) (ops1 : ElemOps β) (shared : Bool) (v : List α)
      (w : List β), v.length < 2 ^ 64 → w.length = v.length →
      ∃ r r1, remove_second ops v = some r ∧ remove_second ops1 w = some r1 ∧
        remove_second_using_remove_if ops shared v = some r ∧
        remove_second_using_remove_if ops1 shared w = some r1 ∧
        r.length = r1.length ∧ ∀ j, r[j]? = v[2 * j]? ∧ r1[j]? = w[2 * j]?) ∧
    ∀ (α β : Type) (ops : ElemOps α) (ops1 : ElemOps β) (f : α → β) (v : List α),
      (∀ x, ops1.self_moved (f x) = f (ops.self_moved x)) → v.length < 2 ^ 64 →
      remove_second_using_ranges ops1 (v.map f) =
        (remove_second_using_ranges ops v).map (List.map f) := by
  refine ⟨by decide, by decide, by decide, by decide, ?_, ?_, ?_⟩
  · intro α β ops ops1 shared f v hv
    have hv1 := size_bound hv
    have hm : (v.map f).length < 18446744073709551616 := by
      rw [List.length_map]
      exact hv1
    refine ⟨?_, ?_⟩
    · rw [remove_second_eq ops1 _ hm, remove_second_eq ops v hv1, even_elements_map f _ v rfl]
      rfl
    · rw [remove_second_using_remove_if_eq, remove_second_using_remove_if_eq,
        even_elements_map f _ v rfl]
      rfl
  · intro α β ops ops1 shared v w hv hw
    have hv1 := size_bound hv
    have hw1 : w.length < 18446744073709551616 := by omega
    refine ⟨even_elements v, even_elements w, remove_second_eq ops v hv1,
      remove_second_eq ops1 w hw1, remove_second_using_remove_if_eq ops shared v,
      remove_second_using_remove_if_eq ops1 shared w, ?_, ?_⟩
    · rw [length_even_elements _ v rfl, length_even_elements _ w rfl, hw]
    · intro j
      exact ⟨getElem?_even_elements _ v rfl j, getElem?_even_elements _ w rfl j⟩
  · intro α β ops ops1 f v hcomm hv
    have hv1 := size_bound hv
    have hm : (v.map f).length < 18446744073709551616 := by
      rw [List.length_map]
      exact hv1
    rw [remove_second_using_ranges_front ops1 _ hm, remove_second_using_ranges_front ops v hv1,
      self_move_front_map ops ops1 f hcomm, even_elements_map f _ _ rfl]
    rfl

end RemoveSecond
